import Mathlib

/-!
Shallow embedding of `cleanup_project.py` (a multi-language source-cleaning
script).  Text is modelled as `List Char`; the only line separator modelled is
`'\n'` (the script's own regexes `[ \t]+$` (MULTILINE), `\n{3,}`, and its
`splitlines(keepends=True)` calls are all exercised by the claims only on
newline-separated text).  Python's `str.lstrip()` is modelled on the ASCII
whitespace characters.  Each definition mirrors one function of the script.
-/

/-- The character class `[ \t]` used by the trailing-whitespace regex. -/
def isHTab (c : Char) : Bool := c = ' ' || c = '\t'

/-- ASCII fragment of the whitespace class stripped by Python's `str.lstrip()`
and matched by the regex class `\s`. -/
def isPySpace (c : Char) : Bool :=
  c = ' ' || c = '\t' || c = '\n' || c = '\r' || c = '\x0b' || c = '\x0c'

/-- Remove trailing `[ \t]` characters (Python `rstrip(" \t")`, i.e. what
`re.sub(r"[ \t]+$", "", line)` does to a single line). -/
def rstripHT : List Char → List Char
  | [] => []
  | c :: t =>
    let r := rstripHT t
    if r = [] && isHTab c then [] else c :: r

/-- Python `str.lstrip()` (ASCII whitespace). -/
def lstripPy (l : List Char) : List Char := l.dropWhile isPySpace

/-- Prepend a character to the first element of a chunk/line list (used by
the two splitting functions below). -/
def consHead (c : Char) : List (List Char) → List (List Char)
  | [] => [[c]]
  | a :: rest => (c :: a) :: rest

/-- Split on `'\n'` without keeping the separators: the chunk list of a text,
as used to model the MULTILINE regex `[ \t]+$`.  A text with `n` newlines has
`n + 1` chunks, none containing `'\n'`. -/
def splitNL : List Char → List (List Char)
  | [] => [[]]
  | c :: t => if c = '\n' then [] :: splitNL t else consHead c (splitNL t)

/-- Rejoin chunks with `'\n'` (inverse of `splitNL`). -/
def joinNL : List (List Char) → List Char
  | [] => []
  | [a] => a
  | a :: b :: rest => a ++ '\n' :: joinNL (b :: rest)

/-- `re.sub(r"[ \t]+$", "", text, flags=re.MULTILINE)`: strip trailing
spaces/tabs from every line of the text. -/
def stripTrailingWS (t : List Char) : List Char :=
  joinNL ((splitNL t).map rstripHT)

/-- Scanner for `re.sub(r"\n{3,}", "\n\n", text)`: `k` counts how many
newlines of the current newline run have been emitted; once two have been
emitted, further newlines of the run are dropped.  A maximal run of `j ≥ 3`
newlines is thus replaced by exactly two, and shorter runs are unchanged. -/
def collapseGo : Nat → List Char → List Char
  | _, [] => []
  | k, c :: t =>
    if c = '\n' then
      if 2 ≤ k then collapseGo k t else c :: collapseGo (k + 1) t
    else c :: collapseGo 0 t

/-- `re.sub(r"\n{3,}", "\n\n", text)`. -/
def collapseNL (t : List Char) : List Char := collapseGo 0 t

/-- `if not text.endswith("\n") and text: text += "\n"`. -/
def ensureNL (t : List Char) : List Char :=
  if t = [] then t else if t.getLast? = some '\n' then t else t ++ ['\n']

/-- `cleanup_empty_lines` from the script: strip trailing horizontal
whitespace per line, collapse runs of three or more newlines to two, and
append a final newline to a nonempty result that lacks one. -/
def cleanup_empty_lines (t : List Char) : List Char :=
  ensureNL (collapseNL (stripTrailingWS t))

example : cleanup_empty_lines " ".toList = [] := by decide
example : cleanup_empty_lines "\n\n".toList = "\n\n".toList := by decide
example : cleanup_empty_lines "a  \n\n\n\nb".toList = "a\n\nb\n".toList := by decide
example : cleanup_empty_lines "x\t\n".toList = "x\n".toList := by decide

/-- Python `str.splitlines(keepends=True)` restricted to `'\n'` separators:
each element keeps its final newline, the last element may lack one, every
element is nonempty, and the empty string yields the empty list. -/
def splitKE : List Char → List (List Char)
  | [] => []
  | c :: t => if c = '\n' then ['\n'] :: splitKE t else consHead c (splitKE t)

/-- Python `str.lower()` (ASCII case folding via `Char.toLower`). -/
def lowerStr (l : List Char) : List Char := l.map Char.toLower

/-- Python substring membership `needle in hay`. -/
def hasSub (needle hay : List Char) : Bool := hay.tails.any needle.isPrefixOf

/-- `has_shebang` from the script: `line.startswith("#!")`. -/
def has_shebang (line : List Char) : Bool := ['#', '!'].isPrefixOf line

/-- Tail of the encoding-cookie regex `coding[:=]\s*([-\.\w]+)`: after the
marker, optional whitespace then at least one character of `[-\.\w]`. -/
def cookieTail (t : List Char) : Bool :=
  match t.dropWhile isPySpace with
  | [] => false
  | c :: _ => c.isAlphanum || c = '_' || c = '-' || c = '.'

/-- Whether `coding[:=]\s*([-\.\w]+)` matches at the start of the text. -/
def cookieAt : List Char → Bool
  | 'c' :: 'o' :: 'd' :: 'i' :: 'n' :: 'g' :: c :: t =>
    (c = ':' || c = '=') && cookieTail t
  | _ => false

/-- `has_encoding_cookie` from the script: `ENCODING_COOKIE_RE.search(line)`
succeeds, i.e. the cookie pattern matches at some position of the line. -/
def has_encoding_cookie (line : List Char) : Bool := line.tails.any cookieAt

example : has_encoding_cookie "# -*- coding: utf-8 -*-".toList = true := by decide
example : has_encoding_cookie "# coding=ascii".toList = true := by decide
example : has_encoding_cookie "# coding: ".toList = false := by decide
example : has_shebang "#!/bin/sh".toList = true := by decide

/-- `should_keep_py_comment` from the script: keep a Python comment iff some
keep-keyword occurs as a substring of the lower-cased comment text. -/
def should_keep_py_comment (comment_text : List Char)
    (keep_keywords : List (List Char)) : Bool :=
  keep_keywords.any (fun kw => hasSub kw (lowerStr comment_text))

/-- `should_keep_sh_comment` from the script: drop the `#` marker
(`comment_line.lstrip()[1:].lstrip()`), lower-case the rest, and look for any
keep-keyword as a substring. -/
def should_keep_sh_comment (comment_line : List Char)
    (keep_keywords : List (List Char)) : Bool :=
  keep_keywords.any
    (fun kw => hasSub kw (lowerStr (lstripPy ((lstripPy comment_line).drop 1))))

/-- The per-line loop of `strip_shell_comments`: a line whose
leading-whitespace-stripped form starts with `#` is kept only when
`should_keep_sh_comment` approves it; every other line is kept verbatim. -/
def shellBody (keep_keywords : List (List Char)) : List (List Char) → List (List Char)
  | [] => []
  | l :: rest =>
    if ['#'].isPrefixOf (lstripPy l) then
      if should_keep_sh_comment (lstripPy l) keep_keywords then
        l :: shellBody keep_keywords rest
      else shellBody keep_keywords rest
    else l :: shellBody keep_keywords rest

/-- `strip_shell_comments` from the script: preserve a first-line shebang,
filter the remaining lines with the per-line comment policy, and normalize
whitespace. -/
def strip_shell_comments (source : List Char) (keep_keywords : List (List Char)) :
    List Char :=
  match splitKE source with
  | [] => []
  | l0 :: rest =>
    if has_shebang l0 then
      cleanup_empty_lines (l0 :: shellBody keep_keywords rest).flatten
    else
      cleanup_empty_lines (shellBody keep_keywords (l0 :: rest)).flatten

example :
    strip_shell_comments "#!/bin/sh\n# shellcheck disable=SC2086\necho hi  # inline\n# plain comment\n".toList
      ["shellcheck".toList]
      = "#!/bin/sh\n# shellcheck disable=SC2086\necho hi  # inline\n".toList := by
  decide

/-- A token produced by Python's `tokenize.tokenize`: the script only
inspects whether `tok.type == tokenize.COMMENT` and the token's `string`
attribute; any further attributes only flow opaquely into `untokenize`. -/
structure PyTok where
  isComment : Bool
  string : List Char
deriving DecidableEq, Repr

/-- Outcome of running the `tokenize.tokenize(...)` loop of
`strip_python_comments`: a token list, a `tokenize.TokenError` (the only
exception class the script catches there), or any other exception — e.g. the
`IndentationError` that CPython's tokenizer raises on a dedent that matches no
outer indentation level, which is not a `TokenError`. -/
inductive TokOutcome where
  | toks (ts : List PyTok)
  | tokenError
  | raised
deriving DecidableEq

/-- Outcome of `tokenize.untokenize` plus the subsequent decode: a text, or
an exception (caught by the script's blanket `except Exception`). -/
inductive UntokOutcome where
  | text (t : List Char)
  | raised
deriving DecidableEq

/-- `strip_python_comments` from the script, parameterized by the standard
library collaborators `tokenize.tokenize` and `tokenize.untokenize` (they are
not part of the repository): the shebang first line and an encoding-cookie
line after it are split off before tokenization; the remainder is tokenized;
comment tokens failing `should_keep_py_comment` are dropped; a
`tokenize.TokenError`, or any `untokenize` failure, makes the function return
the source unchanged, while any other tokenizer exception propagates
(`Except.error ()`).  `pyKeptCount` is `remaining_start_index`: how many
initial lines (shebang, then encoding cookie) are withheld from the
tokenizer. -/
def pyKeptCount (source : List Char) : Nat :=
  let lines := splitKE source
  let sheb : Bool :=
    match lines with
    | [] => false
    | l0 :: _ => has_shebang l0
  let i1 : Nat := if sheb then 1 else 0
  if decide (i1 < lines.length) && has_encoding_cookie (lines.getD i1 []) then i1 + 1
  else i1

/-- The text handed to the tokenizer by `strip_python_comments`:
`"".join(lines[remaining_start_index:])`. -/
def pyRemaining (source : List Char) : List Char :=
  ((splitKE source).drop (pyKeptCount source)).flatten

def strip_python_comments (tokenizeFn : List Char → TokOutcome)
    (untokenizeFn : List PyTok → UntokOutcome)
    (source : List Char) (keep_keywords : List (List Char)) :
    Except Unit (List Char) :=
  match tokenizeFn (pyRemaining source) with
  | .tokenError => .ok source
  | .raised => .error ()
  | .toks ts =>
    let kept := ts.filter fun tk => !tk.isComment || should_keep_py_comment tk.string keep_keywords
    match untokenizeFn kept with
    | .raised => .ok source
    | .text processed =>
      .ok (((splitKE source).take (pyKeptCount source)).flatten
        ++ cleanup_empty_lines processed)

/-- One pass of the scanner for `re.sub(r"/\*.*?\*/", "", s, flags=re.DOTALL)`
(and likewise for the CSS/JS block-comment regex).  Outside a comment
(`inside = false`) characters are emitted until `/*` is seen; inside a comment
the consumed characters are remembered in `pending` (reversed) so that an
unterminated comment — one with no later `*/` — is emitted verbatim, exactly
as an unmatched regex position is. -/
def blockScan : Bool → List Char → List Char → List Char
  | false, _, [] => []
  | false, _, '/' :: '*' :: t => blockScan true ['*', '/'] t
  | false, p, c :: t => c :: blockScan false p t
  | true, p, [] => p.reverse
  | true, _, '*' :: '/' :: t => blockScan false [] t
  | true, p, c :: t => blockScan true (c :: p) t

/-- `re.sub(r"/\*.*?\*/", "", s, flags=re.DOTALL)`: remove every block
comment span, leftmost-first and non-greedy, leaving unterminated openers in
place. -/
def removeBlockComments (s : List Char) : List Char := blockScan false [] s

/-- Scanner for the HTML comment regex `re.sub(r"<!--.*?-->", "", s,
flags=re.DOTALL)`, with the same pending-text treatment of unterminated
comments as `blockScan`. -/
def htmlScan : Bool → List Char → List Char → List Char
  | false, _, [] => []
  | false, _, '<' :: '!' :: '-' :: '-' :: t => htmlScan true ['-', '-', '!', '<'] t
  | false, p, c :: t => c :: htmlScan false p t
  | true, p, [] => p.reverse
  | true, _, '-' :: '-' :: '>' :: t => htmlScan false [] t
  | true, p, c :: t => htmlScan true (c :: p) t

/-- `re.sub(r"<!--.*?-->", "", s, flags=re.DOTALL)`. -/
def removeHtmlComments (s : List Char) : List Char := htmlScan false [] s

/-- `strip_html_comments` from the script. -/
def strip_html_comments (source : List Char) : List Char :=
  cleanup_empty_lines (removeHtmlComments source)

/-- `strip_css_comments` from the script. -/
def strip_css_comments (source : List Char) : List Char :=
  cleanup_empty_lines (removeBlockComments source)

/-- Scanner for `re.sub(r"(?<!:)//.*", "", s)`: `prev` is the character just
before the scan position (for the `(?<!:)` lookbehind) and `skipping` records
that a match is being consumed up to the end of its line (`.` does not match
`'\n'`).  When `//` is found right after a `:` the regex engine advances one
character and retries, which is what the `prev = ':'` branch does. -/
def jsLineGo (prev : Option Char) (skipping : Bool) : List Char → List Char
  | [] => []
  | c :: t =>
    if skipping then
      if c = '\n' then c :: jsLineGo (some '\n') false t else jsLineGo prev true t
    else
      if c = '/' && t.head? == some '/' && !(prev == some ':') then jsLineGo none true t
      else c :: jsLineGo (some c) false t

/-- `re.sub(r"(?<!:)//.*", "", s)`. -/
def removeLineComments (s : List Char) : List Char := jsLineGo none false s

/-- `strip_js_comments` from the script: block comments first, then
`//` comments guarded by the colon lookbehind, then normalization. -/
def strip_js_comments (source : List Char) : List Char :=
  cleanup_empty_lines (removeLineComments (removeBlockComments source))

example : strip_html_comments "<p>keep</p><!-- drop me\nmultiline --><p>also keep</p>".toList
    = "<p>keep</p><p>also keep</p>\n".toList := by decide
example : strip_css_comments "a /* x */ b".toList = "a  b\n".toList := by decide
example : strip_js_comments "a://x\nb//y\nc:///z".toList = "a://x\nb\nc:/\n".toList := by
  decide
example : strip_js_comments "//*a*/*b*/".toList = "/*b*/\n".toList := by decide

/-- Result of `write_if_changed`: the returned changed-flag and whether the
file was actually rewritten (`path.write_text` executed). -/
structure WriteOutcome where
  changed : Bool
  wrote : Bool
deriving DecidableEq, Repr

/-- `write_if_changed` from the script, with the file system abstracted to
the outcome of `path.read_text` — `none` models an I/O or decode exception
(caught and treated as "no current content").  The write is recorded rather
than performed. -/
def write_if_changed (old_content : Option (List Char)) (new_content : List Char)
    (dry_run : Bool) : WriteOutcome :=
  if old_content = some new_content then ⟨false, false⟩
  else if dry_run then ⟨true, false⟩
  else ⟨true, true⟩

/-! ### Proof-support definitions -/

/-- Length of the run of newlines at the head of a text. -/
def leadRun (t : List Char) : Nat := (t.takeWhile (fun c => c = '\n')).length

/-- "No three consecutive newline characters occur in `t`". -/
def noTriple (t : List Char) : Prop := ¬ ['\n', '\n', '\n'] <:+: t

instance (t : List Char) : Decidable (noTriple t) := by
  unfold noTriple
  infer_instance

/-- Chunk-level image of `collapseGo`: on the chunk list of a text (`splitNL`)
the newline collapser keeps every nonempty chunk and drops an empty chunk
exactly when two newlines of the current run have already been emitted. -/
def collapseChunks : Nat → List (List Char) → List (List Char)
  | _, [] => []
  | _, [a] => [a]
  | k, [] :: b :: rest =>
    if 2 ≤ k then collapseChunks k (b :: rest)
    else [] :: collapseChunks (k + 1) (b :: rest)
  | _, a :: b :: rest => a :: collapseChunks 1 (b :: rest)

/-- The keep-test applied by the loop of `strip_shell_comments` to each line
after the shebang: keep it iff it is not a whole-line comment or the keyword
policy approves it. -/
def shellKeepLine (keep_keywords : List (List Char)) (l : List Char) : Bool :=
  !(['#'].isPrefixOf (lstripPy l)) || should_keep_sh_comment (lstripPy l) keep_keywords

/-- Truncation of a single (newline-free) line at its first `//` occurrence
not immediately preceded by a colon — the per-line reading of the regex
`(?<!:)//.*`; `prev` is the character before the scan position. -/
def truncFrom (prev : Option Char) : List Char → List Char
  | [] => []
  | c :: t =>
    if c = '/' && t.head? == some '/' && !(prev == some ':') then []
    else c :: truncFrom (some c) t

/-- Scan for the first `*/` and return the text after it (the non-greedy
close of the CSS/JS block-comment regex). -/
def dropToClose : List Char → Option (List Char)
  | [] => none
  | '*' :: '/' :: t => some t
  | _ :: t => dropToClose t

/-- Scan for the first `-->` and return the text after it. -/
def dropToArrow : List Char → Option (List Char)
  | [] => none
  | '-' :: '-' :: '>' :: t => some t
  | _ :: t => dropToArrow t

/-! ### Basic bridges -/

theorem hasSub_iff_isInfix (n h : List Char) : hasSub n h = true ↔ n <:+: h := by
  unfold hasSub
  rw [List.any_eq_true]
  constructor
  · rintro ⟨t, ht, hp⟩
    rw [List.mem_tails] at ht
    rw [List.isPrefixOf_iff_prefix] at hp
    exact List.infix_iff_prefix_suffix.mpr ⟨t, hp, ht⟩
  · intro hi
    obtain ⟨t, hp, ht⟩ := List.infix_iff_prefix_suffix.mp hi
    exact ⟨t, (List.mem_tails _ _).mpr ht, List.isPrefixOf_iff_prefix.mpr hp⟩

theorem splitNL_cons_nl (t : List Char) : splitNL ('\n' :: t) = [] :: splitNL t := by
  simp [splitNL]

theorem splitNL_cons_other (c : Char) (t : List Char) (h : c ≠ '\n') :
    splitNL (c :: t) = consHead c (splitNL t) := by
  simp [splitNL, h]

theorem splitNL_ne_nil (t : List Char) : splitNL t ≠ [] := by
  cases t with
  | nil => simp [splitNL]
  | cons c t =>
    by_cases h : c = '\n'
    · subst h; rw [splitNL_cons_nl]; simp
    · rw [splitNL_cons_other c t h]
      cases splitNL t <;> simp [consHead]

theorem joinNL_cons (a : List Char) (L : List (List Char)) (h : L ≠ []) :
    joinNL (a :: L) = a ++ '\n' :: joinNL L := by
  cases L with
  | nil => exact absurd rfl h
  | cons b R => rfl

theorem joinNL_consHead (c : Char) (L : List (List Char)) :
    joinNL (consHead c L) = c :: joinNL L := by
  cases L with
  | nil => rfl
  | cons a R =>
    cases R with
    | nil => rfl
    | cons b R' => rfl

theorem joinNL_splitNL (t : List Char) : joinNL (splitNL t) = t := by
  induction t with
  | nil => rfl
  | cons c t ih =>
    by_cases h : c = '\n'
    · subst h
      rw [splitNL_cons_nl, joinNL_cons _ _ (splitNL_ne_nil t), ih]
      rfl
    · rw [splitNL_cons_other c t h, joinNL_consHead, ih]

theorem mem_consHead (c : Char) (L : List (List Char)) :
    ∀ l ∈ consHead c L, l = c :: L.headI ∨ l ∈ L.tail := by
  cases L with
  | nil =>
    intro l hl
    simp only [consHead, List.mem_singleton] at hl
    left
    rw [hl]
    rfl
  | cons a R =>
    intro l hl
    simp only [consHead, List.mem_cons] at hl
    rcases hl with hl | hl
    · left; simp [hl, List.headI]
    · right; simpa using hl

theorem headI_mem_of_ne_nil {α : Type} [Inhabited α] (L : List α) (h : L ≠ []) :
    L.headI ∈ L := by
  cases L with
  | nil => exact absurd rfl h
  | cons a R => simp [List.headI]

theorem mem_splitNL_no_nl (t : List Char) : ∀ l ∈ splitNL t, '\n' ∉ l := by
  induction t with
  | nil => simp [splitNL]
  | cons c t ih =>
    by_cases h : c = '\n'
    · subst h
      rw [splitNL_cons_nl]
      intro l hl
      simp only [List.mem_cons] at hl
      rcases hl with hl | hl
      · simp [hl]
      · exact ih l hl
    · rw [splitNL_cons_other c t h]
      intro l hl
      rcases mem_consHead c _ l hl with hl' | hl'
      · subst hl'
        intro hmem
        simp only [List.mem_cons] at hmem
        rcases hmem with hmem | hmem
        · exact h hmem.symm
        · exact ih _ (headI_mem_of_ne_nil _ (splitNL_ne_nil t)) hmem
      · exact ih l (List.mem_of_mem_tail hl')

theorem splitNL_no_nl_eq (a : List Char) (h : '\n' ∉ a) : splitNL a = [a] := by
  induction a with
  | nil => rfl
  | cons c t ih =>
    have hc : c ≠ '\n' := fun hc => h (by simp [hc])
    rw [splitNL_cons_other c t hc, ih (fun hm => h (by simp [hm]))]
    rfl

theorem splitNL_append_nl (a t : List Char) (h : '\n' ∉ a) :
    splitNL (a ++ '\n' :: t) = a :: splitNL t := by
  induction a with
  | nil => simpa using splitNL_cons_nl t
  | cons c a' ih =>
    have hc : c ≠ '\n' := fun hc => h (by simp [hc])
    have h' : '\n' ∉ a' := fun hm => h (by simp [hm])
    rw [List.cons_append, splitNL_cons_other c _ hc, ih h']
    rfl

theorem splitNL_joinNL (L : List (List Char)) (hne : L ≠ [])
    (hnl : ∀ l ∈ L, '\n' ∉ l) : splitNL (joinNL L) = L := by
  induction L with
  | nil => exact absurd rfl hne
  | cons a R ih =>
    cases R with
    | nil => exact splitNL_no_nl_eq a (hnl a (by simp))
    | cons b R' =>
      rw [joinNL_cons _ _ (by simp), splitNL_append_nl _ _ (hnl a (by simp)),
        ih (by simp) (fun l hl => hnl l (by simp [hl]))]

/-! ### Facts about trailing-whitespace stripping -/

theorem rstripHT_nil : rstripHT [] = [] := rfl

theorem rstripHT_cons (c : Char) (t : List Char) :
    rstripHT (c :: t) = if rstripHT t = [] && isHTab c then [] else c :: rstripHT t := by
  rfl

theorem rstripHT_eq_nil_iff (l : List Char) :
    rstripHT l = [] ↔ ∀ c ∈ l, isHTab c = true := by
  induction l with
  | nil => simp [rstripHT]
  | cons c t ih =>
    rw [rstripHT_cons]
    by_cases h1 : rstripHT t = [] <;> by_cases h2 : isHTab c = true <;>
      simp [h1, h2, List.forall_mem_cons, ← ih]

theorem rstripHT_isPrefix (l : List Char) : rstripHT l <+: l := by
  induction l with
  | nil => simp [rstripHT]
  | cons c t ih =>
    rw [rstripHT_cons]
    by_cases h : rstripHT t = [] && isHTab c
    · rw [if_pos h]; exact List.nil_prefix
    · rw [if_neg h]; exact List.prefix_cons_iff.mpr (Or.inr ⟨rstripHT t, rfl, ih⟩)

theorem rstripHT_idem (l : List Char) : rstripHT (rstripHT l) = rstripHT l := by
  induction l with
  | nil => rfl
  | cons c t ih =>
    rw [rstripHT_cons]
    by_cases h : rstripHT t = [] && isHTab c
    · rw [if_pos h]; rfl
    · rw [if_neg h, rstripHT_cons, ih, if_neg h]

theorem rstripHT_append (a b : List Char) (h : rstripHT b ≠ []) :
    rstripHT (a ++ b) = a ++ rstripHT b := by
  induction a with
  | nil => rfl
  | cons c a' ih =>
    rw [List.cons_append, rstripHT_cons, ih]
    have : ¬(a' ++ rstripHT b = [] && isHTab c) = true := by
      simp only [Bool.and_eq_true, decide_eq_true_eq, not_and_or]
      left
      intro hx
      exact h (List.append_eq_nil.mp hx).2
    rw [if_neg this]
    rfl

theorem rstripHT_append_all_ht (a b : List Char) (hb : ∀ c ∈ b, isHTab c = true) :
    rstripHT (a ++ b) = rstripHT a := by
  induction a with
  | nil =>
    have hnil : rstripHT b = [] := (rstripHT_eq_nil_iff b).mpr hb
    simp [hnil, rstripHT]
  | cons c a' ih =>
    rw [List.cons_append, rstripHT_cons, ih, rstripHT_cons]

theorem rstripHT_no_nl (l : List Char) (h : '\n' ∉ l) : '\n' ∉ rstripHT l :=
  fun hm => h (List.IsPrefix.subset (rstripHT_isPrefix l) hm)

/-! ### Facts about `stripTrailingWS` -/

theorem stripTrailingWS_no_nl (a : List Char) (h : '\n' ∉ a) :
    stripTrailingWS a = rstripHT a := by
  unfold stripTrailingWS
  rw [splitNL_no_nl_eq a h]
  rfl

theorem stripTrailingWS_append_line (a t : List Char) (h : '\n' ∉ a) :
    stripTrailingWS (a ++ '\n' :: t) = rstripHT a ++ '\n' :: stripTrailingWS t := by
  unfold stripTrailingWS
  rw [splitNL_append_nl a t h, List.map_cons,
    joinNL_cons _ _ (by simp [splitNL_ne_nil t])]

theorem stripTrailingWS_chunks (t : List Char) :
    splitNL (stripTrailingWS t) = (splitNL t).map rstripHT := by
  unfold stripTrailingWS
  refine splitNL_joinNL _ (by simp [splitNL_ne_nil t]) ?_
  intro l hl
  simp only [List.mem_map] at hl
  obtain ⟨x, hx, hlx⟩ := hl
  rw [← hlx]
  exact rstripHT_no_nl x (mem_splitNL_no_nl t x hx)

theorem stripTrailingWS_idem (t : List Char) :
    stripTrailingWS (stripTrailingWS t) = stripTrailingWS t := by
  have h1 : stripTrailingWS (stripTrailingWS t)
      = joinNL ((splitNL (stripTrailingWS t)).map rstripHT) := rfl
  rw [h1, stripTrailingWS_chunks, List.map_map]
  unfold stripTrailingWS
  congr 1
  exact List.map_congr_left fun a _ => rstripHT_idem a

theorem stripTrailingWS_fixed_of_chunks (t : List Char)
    (h : ∀ l ∈ splitNL t, rstripHT l = l) : stripTrailingWS t = t := by
  conv_rhs => rw [← joinNL_splitNL t]
  unfold stripTrailingWS
  congr 1
  have hmap : List.map rstripHT (splitNL t) = List.map (fun a => a) (splitNL t) :=
    List.map_congr_left fun a ha => h a ha
  simpa using hmap

/-! ### Facts about newline collapsing -/

theorem collapseGo_cons (k : Nat) (c : Char) (t : List Char) :
    collapseGo k (c :: t)
      = if c = '\n' then
          (if 2 ≤ k then collapseGo k t else c :: collapseGo (k + 1) t)
        else c :: collapseGo 0 t := rfl

theorem collapseGo_no_nl (k : Nat) (a : List Char) (h : '\n' ∉ a) :
    collapseGo k a = a := by
  induction a generalizing k with
  | nil => rfl
  | cons c t ih =>
    have hc : c ≠ '\n' := fun hc => h (by simp [hc])
    rw [collapseGo_cons, if_neg hc, ih 0 (fun hm => h (by simp [hm]))]

theorem collapseGo_append_no_nl (k : Nat) (a x : List Char) (h : '\n' ∉ a)
    (hne : a ≠ []) : collapseGo k (a ++ x) = a ++ collapseGo 0 x := by
  induction a generalizing k with
  | nil => exact absurd rfl hne
  | cons c t ih =>
    have hc : c ≠ '\n' := fun hc => h (by simp [hc])
    rw [List.cons_append, collapseGo_cons, if_neg hc]
    cases t with
    | nil => rfl
    | cons d t' =>
      rw [ih 0 (fun hm => h (by simp [hm])) (by simp)]
      rfl

theorem leadRun_nil : leadRun [] = 0 := rfl

theorem leadRun_cons_nl (t : List Char) : leadRun ('\n' :: t) = leadRun t + 1 := by
  simp [leadRun, List.takeWhile]

theorem leadRun_cons_other (c : Char) (t : List Char) (h : c ≠ '\n') :
    leadRun (c :: t) = 0 := by
  simp [leadRun, List.takeWhile, h]

theorem single_nl_prefix_iff (t : List Char) : ['\n'] <+: t ↔ 1 ≤ leadRun t := by
  cases t with
  | nil => simp [leadRun_nil]
  | cons c t' =>
    by_cases h : c = '\n'
    · subst h
      simp [leadRun_cons_nl, List.prefix_cons_iff]
    · rw [leadRun_cons_other c t' h]
      simp only [List.prefix_cons_iff]
      constructor
      · rintro (h1 | ⟨w, hw, _⟩)
        · exact absurd h1 (by simp)
        · exact absurd (List.head_eq_of_cons_eq hw).symm h
      · omega

theorem pair_nl_prefix_iff (t : List Char) : ['\n', '\n'] <+: t ↔ 2 ≤ leadRun t := by
  cases t with
  | nil => simp [leadRun_nil]
  | cons c t' =>
    by_cases h : c = '\n'
    · subst h
      rw [leadRun_cons_nl, List.cons_prefix_cons, single_nl_prefix_iff]
      simp only [true_and]
      omega
    · rw [leadRun_cons_other c t' h, List.cons_prefix_cons]
      constructor
      · intro hx
        exact absurd hx.1.symm h
      · omega

theorem triple_nl_prefix_iff (t : List Char) :
    ['\n', '\n', '\n'] <+: t ↔ 3 ≤ leadRun t := by
  cases t with
  | nil => simp [leadRun_nil]
  | cons c t' =>
    by_cases h : c = '\n'
    · subst h
      rw [leadRun_cons_nl, List.cons_prefix_cons, pair_nl_prefix_iff]
      simp only [true_and]
      omega
    · rw [leadRun_cons_other c t' h, List.cons_prefix_cons]
      constructor
      · intro hx
        exact absurd hx.1.symm h
      · omega

theorem noTriple_cons_iff (c : Char) (t : List Char) :
    noTriple (c :: t) ↔ noTriple t ∧ ¬(c = '\n' ∧ 2 ≤ leadRun t) := by
  unfold noTriple
  rw [List.infix_cons_iff]
  have hp : ['\n', '\n', '\n'] <+: c :: t ↔ '\n' = c ∧ 2 ≤ leadRun t := by
    rw [List.cons_prefix_cons, pair_nl_prefix_iff]
  constructor
  · intro h
    refine ⟨fun hi => h (Or.inr hi), fun ⟨hc, hl⟩ => h (Or.inl (hp.mpr ⟨hc.symm, hl⟩))⟩
  · rintro ⟨h1, h2⟩ (hpp | hi)
    · rcases hp.mp hpp with ⟨hc, hl⟩
      exact h2 ⟨hc.symm, hl⟩
    · exact h1 hi

theorem noTriple_nil : noTriple [] := by
  unfold noTriple
  intro h
  exact absurd (List.eq_nil_of_infix_nil h) (by simp)

theorem noTriple_tail (c : Char) (t : List Char) (h : noTriple (c :: t)) : noTriple t :=
  ((noTriple_cons_iff c t).mp h).1

theorem leadRun_le_two_of_noTriple (t : List Char) (h : noTriple t) : leadRun t ≤ 2 := by
  by_contra hlt
  exact h ((triple_nl_prefix_iff t).mpr (by omega)).isInfix

theorem collapseGo_id (k : Nat) (t : List Char) (h1 : noTriple t)
    (h2 : k + leadRun t ≤ 2) : collapseGo k t = t := by
  induction t generalizing k with
  | nil => rfl
  | cons c t' ih =>
    rw [collapseGo_cons]
    by_cases hc : c = '\n'
    · subst hc
      rw [leadRun_cons_nl] at h2
      rw [if_pos rfl, if_neg (by omega)]
      rw [ih (k + 1) (noTriple_tail _ _ h1) (by omega)]
    · rw [if_neg hc]
      have h3 : leadRun t' ≤ 2 := by
        rcases (noTriple_cons_iff c t').mp h1 with ⟨ht, _⟩
        exact leadRun_le_two_of_noTriple t' ht
      rw [ih 0 (noTriple_tail _ _ h1) (by omega)]

theorem collapseGo_invariant (k : Nat) (t : List Char) :
    noTriple (collapseGo k t) ∧ leadRun (collapseGo k t) + min k 2 ≤ 2 := by
  induction t generalizing k with
  | nil =>
    refine ⟨noTriple_nil, ?_⟩
    rw [collapseGo, leadRun_nil]
    omega
  | cons c t' ih =>
    rw [collapseGo_cons]
    by_cases hc : c = '\n'
    · subst hc
      rw [if_pos rfl]
      by_cases hk : 2 ≤ k
      · rw [if_pos hk]
        rcases ih k with ⟨ha, hb⟩
        exact ⟨ha, hb⟩
      · rw [if_neg hk]
        rcases ih (k + 1) with ⟨ha, hb⟩
        constructor
        · rw [noTriple_cons_iff]
          refine ⟨ha, ?_⟩
          rintro ⟨-, hl⟩
          omega
        · rw [leadRun_cons_nl]
          omega
    · rw [if_neg hc]
      rcases ih 0 with ⟨ha, hb⟩
      constructor
      · rw [noTriple_cons_iff]
        refine ⟨ha, ?_⟩
        rintro ⟨hceq, -⟩
        exact hc hceq
      · rw [leadRun_cons_other c _ hc]
        omega

theorem collapseNL_idem (t : List Char) : collapseNL (collapseNL t) = collapseNL t := by
  unfold collapseNL
  rcases collapseGo_invariant 0 t with ⟨h1, h2⟩
  exact collapseGo_id 0 _ h1 (by omega)

theorem collapseChunks_single (k : Nat) (a : List Char) :
    collapseChunks k [a] = [a] := by cases a <;> rfl

theorem collapseChunks_nil_cons (k : Nat) (b : List Char) (R' : List (List Char)) :
    collapseChunks k ([] :: b :: R')
      = if 2 ≤ k then collapseChunks k (b :: R')
        else [] :: collapseChunks (k + 1) (b :: R') := rfl

theorem collapseChunks_cons_cons (k : Nat) (x : Char) (xs b : List Char)
    (R' : List (List Char)) :
    collapseChunks k ((x :: xs) :: b :: R')
      = (x :: xs) :: collapseChunks 1 (b :: R') := rfl

theorem collapseChunks_ne_nil (k : Nat) (C : List (List Char)) (h : C ≠ []) :
    collapseChunks k C ≠ [] := by
  induction C generalizing k with
  | nil => exact absurd rfl h
  | cons a R ih =>
    cases R with
    | nil => simp [collapseChunks]
    | cons b R' =>
      cases a with
      | nil =>
        rw [collapseChunks_nil_cons]
        by_cases hk : 2 ≤ k
        · rw [if_pos hk]; exact ih k (by simp)
        · rw [if_neg hk]; simp
      | cons x xs => simp [collapseChunks_cons_cons]

theorem mem_collapseChunks (k : Nat) (C : List (List Char)) :
    ∀ l ∈ collapseChunks k C, l ∈ C := by
  induction C generalizing k with
  | nil => simp [collapseChunks]
  | cons a R ih =>
    cases R with
    | nil => simp [collapseChunks]
    | cons b R' =>
      cases a with
      | nil =>
        rw [collapseChunks_nil_cons]
        by_cases hk : 2 ≤ k
        · rw [if_pos hk]
          intro l hl
          exact List.mem_cons_of_mem _ (ih k l hl)
        · rw [if_neg hk]
          intro l hl
          rcases List.mem_cons.mp hl with h1 | h1
          · simp [h1]
          · exact List.mem_cons_of_mem _ (ih (k + 1) l h1)
      | cons x xs =>
        rw [collapseChunks_cons_cons]
        intro l hl
        rcases List.mem_cons.mp hl with h1 | h1
        · simp [h1]
        · exact List.mem_cons_of_mem _ (ih 1 l h1)

theorem collapseGo_joinNL (k : Nat) (C : List (List Char)) (hC : ∀ l ∈ C, '\n' ∉ l) :
    collapseGo k (joinNL C) = joinNL (collapseChunks k C) := by
  induction C generalizing k with
  | nil => rfl
  | cons a R ih =>
    cases R with
    | nil =>
      rw [collapseChunks_single]
      exact collapseGo_no_nl k a (hC a (by simp))
    | cons b R' =>
      rw [joinNL_cons _ _ (by simp)]
      cases a with
      | nil =>
        rw [List.nil_append, collapseGo_cons, if_pos rfl, collapseChunks_nil_cons]
        by_cases hk : 2 ≤ k
        · rw [if_pos hk, if_pos hk, ih k (fun l hl => hC l (by simp [hl]))]
        · rw [if_neg hk, if_neg hk, ih (k + 1) (fun l hl => hC l (by simp [hl]))]
          rw [joinNL_cons _ _ (collapseChunks_ne_nil (k + 1) _ (by simp))]
          rfl
      | cons x xs =>
        rw [collapseGo_append_no_nl k _ _ (hC _ (by simp)) (by simp)]
        rw [collapseGo_cons, if_pos rfl, if_neg (by omega)]
        rw [ih 1 (fun l hl => hC l (by simp [hl])), collapseChunks_cons_cons]
        rw [joinNL_cons _ _ (collapseChunks_ne_nil 1 _ (by simp))]

theorem joinNL_append_nil_chunk (D : List (List Char)) (h : D ≠ []) :
    joinNL (D ++ [[]]) = joinNL D ++ ['\n'] := by
  induction D with
  | nil => exact absurd rfl h
  | cons a R ih =>
    cases R with
    | nil => rfl
    | cons b R' =>
      rw [List.cons_append, joinNL_cons _ _ (by simp), joinNL_cons _ _ (by simp),
        ih (by simp)]
      simp

theorem leadRun_append_nl (y : List Char) (hne : y ≠ [])
    (hl : y.getLast? ≠ some '\n') : leadRun (y ++ ['\n']) = leadRun y := by
  induction y with
  | nil => exact absurd rfl hne
  | cons c y' ih =>
    cases y' with
    | nil =>
      have hc : c ≠ '\n' := by simpa using hl
      rw [leadRun_cons_other c _ hc]
      simp only [List.cons_append, List.nil_append]
      rw [leadRun_cons_other c _ hc]
    | cons d y'' =>
      have hl' : (d :: y'').getLast? ≠ some '\n' := by
        rwa [List.getLast?_cons_cons] at hl
      by_cases hc : c = '\n'
      · subst hc
        rw [List.cons_append, leadRun_cons_nl, leadRun_cons_nl, ih (by simp) hl']
      · rw [List.cons_append, leadRun_cons_other c _ hc, leadRun_cons_other c _ hc]

theorem noTriple_append_nl (y : List Char) (hl : y.getLast? ≠ some '\n')
    (h : noTriple y) : noTriple (y ++ ['\n']) := by
  induction y with
  | nil =>
    intro hx
    have := List.IsInfix.length_le hx
    simp at this
  | cons c y' ih =>
    rw [List.cons_append, noTriple_cons_iff]
    cases y' with
    | nil =>
      have hc : c ≠ '\n' := by simpa using hl
      exact ⟨by unfold noTriple; intro hx; have := List.IsInfix.length_le hx; simp at this,
        fun hx => hc hx.1⟩
    | cons d y'' =>
      have hl' : (d :: y'').getLast? ≠ some '\n' := by
        rwa [List.getLast?_cons_cons] at hl
      rcases (noTriple_cons_iff c (d :: y'')).mp h with ⟨h1, h2⟩
      refine ⟨ih hl' h1, ?_⟩
      rintro ⟨hc, hrun⟩
      rw [leadRun_append_nl _ (by simp) hl'] at hrun
      exact h2 ⟨hc, hrun⟩

theorem ensureNL_ends_nl (z : List Char) (h : z ≠ []) :
    (ensureNL z).getLast? = some '\n' := by
  unfold ensureNL
  rw [if_neg h]
  by_cases he : z.getLast? = some '\n'
  · rw [if_pos he]; exact he
  · rw [if_neg he]
    simp

theorem ensureNL_last_nl (z : List Char) (h : z.getLast? = some '\n') :
    ensureNL z = z := by
  unfold ensureNL
  by_cases hz : z = []
  · rw [if_pos hz]
  · rw [if_neg hz, if_pos h]

theorem ensureNL_idem (z : List Char) : ensureNL (ensureNL z) = ensureNL z := by
  by_cases h : z = []
  · subst h; rfl
  · exact ensureNL_last_nl _ (ensureNL_ends_nl z h)

/-! ### The normal form of `cleanup_empty_lines` -/

theorem cleanup_chunks_fixed (t : List Char) :
    ∀ l ∈ splitNL (cleanup_empty_lines t), rstripHT l = l := by
  have hfix : ∀ l ∈ (splitNL t).map rstripHT, rstripHT l = l := by
    intro l hl
    rcases List.mem_map.mp hl with ⟨x, _, hx⟩
    rw [← hx]
    exact rstripHT_idem x
  have hnl : ∀ l ∈ (splitNL t).map rstripHT, '\n' ∉ l := by
    intro l hl
    rcases List.mem_map.mp hl with ⟨x, hx, hlx⟩
    rw [← hlx]
    exact rstripHT_no_nl x (mem_splitNL_no_nl t x hx)
  have hCne : (splitNL t).map rstripHT ≠ [] := by
    simp [splitNL_ne_nil t]
  have hy : collapseNL (stripTrailingWS t)
      = joinNL (collapseChunks 0 ((splitNL t).map rstripHT)) :=
    collapseGo_joinNL 0 _ hnl
  have hDmem := mem_collapseChunks 0 ((splitNL t).map rstripHT)
  have hDnl : ∀ l ∈ collapseChunks 0 ((splitNL t).map rstripHT), '\n' ∉ l :=
    fun l hl => hnl l (hDmem l hl)
  have hDfix : ∀ l ∈ collapseChunks 0 ((splitNL t).map rstripHT), rstripHT l = l :=
    fun l hl => hfix l (hDmem l hl)
  have hDne := collapseChunks_ne_nil 0 _ hCne
  show ∀ l ∈ splitNL (ensureNL (collapseNL (stripTrailingWS t))), rstripHT l = l
  by_cases hz : collapseNL (stripTrailingWS t) = []
  · rw [hz]
    intro l hl
    simp only [ensureNL, if_pos rfl] at hl
    simp only [splitNL] at hl
    rcases List.mem_singleton.mp hl with rfl
    rfl
  · by_cases he : (collapseNL (stripTrailingWS t)).getLast? = some '\n'
    · rw [ensureNL_last_nl _ he, hy, splitNL_joinNL _ hDne hDnl]
      exact hDfix
    · have : ensureNL (collapseNL (stripTrailingWS t))
          = collapseNL (stripTrailingWS t) ++ ['\n'] := by
        unfold ensureNL
        rw [if_neg hz, if_neg he]
      rw [this, hy, ← joinNL_append_nil_chunk _ hDne]
      rw [splitNL_joinNL _ (by simp) (by
        intro l hl
        rcases List.mem_append.mp hl with hl | hl
        · exact hDnl l hl
        · rcases List.mem_singleton.mp hl with rfl; simp)]
      intro l hl
      rcases List.mem_append.mp hl with hl | hl
      · exact hDfix l hl
      · rcases List.mem_singleton.mp hl with rfl; rfl

theorem cleanup_stripT_fixed (t : List Char) :
    stripTrailingWS (cleanup_empty_lines t) = cleanup_empty_lines t :=
  stripTrailingWS_fixed_of_chunks _ (cleanup_chunks_fixed t)

theorem cleanup_noTriple (t : List Char) : noTriple (cleanup_empty_lines t) := by
  rcases collapseGo_invariant 0 (stripTrailingWS t) with ⟨h1, _⟩
  show noTriple (ensureNL (collapseNL (stripTrailingWS t)))
  by_cases hz : collapseNL (stripTrailingWS t) = []
  · rw [hz]
    unfold ensureNL noTriple
    intro hx
    have := List.IsInfix.length_le hx
    simp at this
  · by_cases he : (collapseNL (stripTrailingWS t)).getLast? = some '\n'
    · rwa [ensureNL_last_nl _ he]
    · have : ensureNL (collapseNL (stripTrailingWS t))
          = collapseNL (stripTrailingWS t) ++ ['\n'] := by
        unfold ensureNL
        rw [if_neg hz, if_neg he]
      rw [this]
      exact noTriple_append_nl _ he h1

theorem cleanup_leadRun_le (t : List Char) : leadRun (cleanup_empty_lines t) ≤ 2 := by
  rcases collapseGo_invariant 0 (stripTrailingWS t) with ⟨_, h2⟩
  rw [show collapseGo 0 (stripTrailingWS t) = collapseNL (stripTrailingWS t) from rfl] at h2
  show leadRun (ensureNL (collapseNL (stripTrailingWS t))) ≤ 2
  by_cases hz : collapseNL (stripTrailingWS t) = []
  · rw [hz]
    unfold ensureNL
    simp [leadRun_nil]
  · by_cases he : (collapseNL (stripTrailingWS t)).getLast? = some '\n'
    · rw [ensureNL_last_nl _ he]
      omega
    · have : ensureNL (collapseNL (stripTrailingWS t))
          = collapseNL (stripTrailingWS t) ++ ['\n'] := by
        unfold ensureNL
        rw [if_neg hz, if_neg he]
      rw [this, leadRun_append_nl _ hz he]
      omega

theorem cleanup_collapse_fixed (t : List Char) :
    collapseNL (cleanup_empty_lines t) = cleanup_empty_lines t :=
  collapseGo_id 0 _ (cleanup_noTriple t) (by have := cleanup_leadRun_le t; omega)

theorem cleanup_ensure_fixed (t : List Char) :
    ensureNL (cleanup_empty_lines t) = cleanup_empty_lines t :=
  ensureNL_idem _

theorem collapseGo_zero_ne_nil (t : List Char) (h : t ≠ []) : collapseGo 0 t ≠ [] := by
  cases t with
  | nil => exact absurd rfl h
  | cons c t' =>
    rw [collapseGo_cons]
    by_cases hc : c = '\n'
    · rw [if_pos hc, if_neg (by omega)]; simp
    · rw [if_neg hc]; simp

theorem two_le_splitNL_len (a b : List Char) :
    2 ≤ (splitNL (a ++ '\n' :: b)).length := by
  induction a with
  | nil =>
    rw [List.nil_append, splitNL_cons_nl]
    have := splitNL_ne_nil b
    cases hs : splitNL b with
    | nil => exact absurd hs this
    | cons x xs => simp
  | cons c a' ih =>
    by_cases hc : c = '\n'
    · subst hc
      rw [List.cons_append, splitNL_cons_nl]
      have := splitNL_ne_nil (a' ++ '\n' :: b)
      cases hs : splitNL (a' ++ '\n' :: b) with
      | nil => exact absurd hs this
      | cons x xs => simp
    · rw [List.cons_append, splitNL_cons_other c _ hc]
      cases hs : splitNL (a' ++ '\n' :: b) with
      | nil => exact absurd hs (splitNL_ne_nil _)
      | cons x xs =>
        rw [hs] at ih
        rw [show consHead c (x :: xs) = (c :: x) :: xs from rfl]
        simp only [List.length_cons] at ih ⊢
        omega

theorem stripTrailingWS_ne_nil (t : List Char) (h : ∃ c ∈ t, isHTab c = false) :
    stripTrailingWS t ≠ [] := by
  intro hnil
  by_cases hnl : '\n' ∈ t
  · rcases List.append_of_mem hnl with ⟨a, b, rfl⟩
    have hchunks : splitNL (stripTrailingWS (a ++ '\n' :: b))
        = (splitNL (a ++ '\n' :: b)).map rstripHT := stripTrailingWS_chunks _
    rw [hnil] at hchunks
    have h1 : splitNL ([] : List Char) = [[]] := rfl
    rw [h1] at hchunks
    have hlen := congrArg List.length hchunks
    simp only [List.length_singleton, List.length_map] at hlen
    have := two_le_splitNL_len a b
    omega
  · have : stripTrailingWS t = rstripHT t := stripTrailingWS_no_nl t hnl
    rw [this] at hnil
    rcases h with ⟨c, hct, hc⟩
    have := (rstripHT_eq_nil_iff t).mp hnil c hct
    rw [this] at hc
    exact Bool.true_eq_false.mp hc

/-- C3: the whitespace normalizer `cleanup_empty_lines` is idempotent. -/
theorem cleanup_empty_lines_idem (x : List Char) :
    cleanup_empty_lines (cleanup_empty_lines x) = cleanup_empty_lines x := by
  show ensureNL (collapseNL (stripTrailingWS (cleanup_empty_lines x)))
      = cleanup_empty_lines x
  rw [cleanup_stripT_fixed, cleanup_collapse_fixed, cleanup_ensure_fixed]

/-- C2 (amended): `cleanup_empty_lines t` has no line with trailing spaces or
tabs and no run of three newlines; and whenever `t` contains any character
other than a space or a tab, the result ends with a trailing newline (by the
second conjunct, with at most two).  (The original claim — a nonempty input
always yields exactly one trailing newline — fails: see the
counterexample.) -/
theorem cleanup_empty_lines_normal_form (t : List Char) :
    (∀ l ∈ splitNL (cleanup_empty_lines t), rstripHT l = l)
    ∧ noTriple (cleanup_empty_lines t)
    ∧ ((∃ c ∈ t, isHTab c = false) → (cleanup_empty_lines t).getLast? = some '\n') := by
  refine ⟨cleanup_chunks_fixed t, cleanup_noTriple t, fun h => ?_⟩
  exact ensureNL_ends_nl _ (collapseGo_zero_ne_nil _ (stripTrailingWS_ne_nil t h))

/-- C2 counterexample: the whitespace-only input `" "` is nonempty yet
normalizes to the empty string (no trailing newline at all), and the nonempty
input `"\n\n"` normalizes to itself, which ends with two trailing newlines —
so the output does not always end with exactly one trailing newline. -/
theorem cleanup_empty_lines_trailing_newline_counterexample :
    " ".toList ≠ [] ∧ cleanup_empty_lines " ".toList = []
    ∧ "\n\n".toList ≠ [] ∧ cleanup_empty_lines "\n\n".toList = "\n\n".toList
    ∧ ['\n', '\n'] <:+ "\n\n".toList := by
  refine ⟨by decide, by decide, by decide, by decide, ?_⟩
  exact ⟨[], rfl⟩

/-- Witness for the conditional conjunct of `cleanup_empty_lines_normal_form`
at the concrete input `"a "`. -/
theorem cleanup_empty_lines_normal_form_witness :
    (cleanup_empty_lines "a ".toList).getLast? = some '\n' :=
  (cleanup_empty_lines_normal_form "a ".toList).2.2 ⟨'a', by decide, by decide⟩

/-! ### The keyword policy and the change-aware writer -/

/-- C9: `should_keep_py_comment` returns true iff some keyword of the set
occurs as a substring of the lower-cased comment text (the text includes its
leading `#` marker — the function receives the full token string); with an
empty keyword set it returns false on every comment text. -/
theorem should_keep_py_comment_spec (comment_text : List Char)
    (keep_keywords : List (List Char)) :
    (should_keep_py_comment comment_text keep_keywords = true
      ↔ ∃ kw ∈ keep_keywords, kw <:+: lowerStr comment_text)
    ∧ should_keep_py_comment comment_text [] = false := by
  constructor
  · unfold should_keep_py_comment
    rw [List.any_eq_true]
    constructor
    · rintro ⟨kw, hkw, hs⟩
      exact ⟨kw, hkw, (hasSub_iff_isInfix kw _).mp hs⟩
    · rintro ⟨kw, hkw, hs⟩
      exact ⟨kw, hkw, (hasSub_iff_isInfix kw _).mpr hs⟩
  · rfl

/-- C8: `write_if_changed` reports "unchanged" (false) exactly when the
current readable content equals the new content (in particular an unreadable
file — `old_content = none` — is always reported as changed), it writes only
when changed and not in dry-run mode, and the reported verdict does not
depend on the dry-run flag. -/
theorem write_if_changed_spec (old_content : Option (List Char))
    (new_content : List Char) (dry_run : Bool) :
    ((write_if_changed old_content new_content dry_run).changed = false
      ↔ old_content = some new_content)
    ∧ (write_if_changed old_content new_content dry_run).wrote
        = ((write_if_changed old_content new_content dry_run).changed && !dry_run)
    ∧ (write_if_changed old_content new_content dry_run).changed
        = (write_if_changed old_content new_content (!dry_run)).changed := by
  unfold write_if_changed
  by_cases h : old_content = some new_content
  · rw [if_pos h, if_pos h]
    simp [h]
  · rw [if_neg h, if_neg h]
    cases dry_run <;> simp [h]

/-! ### The Python stripper: preserved prefix and failure policy -/

theorem flatten_consHead (c : Char) (L : List (List Char)) :
    (consHead c L).flatten = c :: L.flatten := by
  cases L with
  | nil => rfl
  | cons a R => simp [consHead]

theorem splitKE_flatten (s : List Char) : (splitKE s).flatten = s := by
  induction s with
  | nil => rfl
  | cons c t ih =>
    unfold splitKE
    by_cases h : c = '\n'
    · subst h
      rw [if_pos rfl]
      simpa using ih
    · rw [if_neg h, flatten_consHead, ih]

theorem pyKeptCount_pos_of_shebang (source : List Char) (l0 : List Char)
    (rest : List (List Char)) (h : splitKE source = l0 :: rest)
    (hs : has_shebang l0 = true) : 1 ≤ pyKeptCount source := by
  unfold pyKeptCount
  rw [h]
  simp only [hs, if_true]
  by_cases hc : (decide (1 < (l0 :: rest).length) && has_encoding_cookie ((l0 :: rest).getD 1 [])) = true
  · rw [if_pos hc]; omega
  · rw [if_neg hc]

theorem pyKeptCount_shebang_cookie (source : List Char) (l0 l1 : List Char)
    (rest' : List (List Char)) (h : splitKE source = l0 :: l1 :: rest')
    (hs : has_shebang l0 = true) (hc : has_encoding_cookie l1 = true) :
    pyKeptCount source = 2 := by
  unfold pyKeptCount
  rw [h]
  simp only [hs, if_true]
  have hcond : (decide (1 < (l0 :: l1 :: rest').length)
      && has_encoding_cookie ((l0 :: l1 :: rest').getD 1 [])) = true := by
    simp only [List.getD_cons_succ, List.getD_cons_zero, List.length_cons,
      Bool.and_eq_true, decide_eq_true_eq]
    exact ⟨by omega, hc⟩
  rw [if_pos hcond]

theorem pyKeptCount_cookie_only (source : List Char) (l0 : List Char)
    (rest : List (List Char)) (h : splitKE source = l0 :: rest)
    (hs : has_shebang l0 = false) (hc : has_encoding_cookie l0 = true) :
    pyKeptCount source = 1 := by
  unfold pyKeptCount
  rw [h]
  simp only [hs, Bool.false_eq_true, if_false]
  have hcond : (decide (0 < (l0 :: rest).length)
      && has_encoding_cookie ((l0 :: rest).getD 0 [])) = true := by
    simp only [List.getD_cons_zero, List.length_cons, Bool.and_eq_true,
      decide_eq_true_eq]
    exact ⟨by omega, hc⟩
  rw [if_pos hcond]

/-- C5: whatever the tokenizer and untokenizer collaborators do and whatever
the keyword set is, whenever `strip_python_comments` returns a text: a
shebang first line is returned verbatim at the very front (before any
analyzed text); with an encoding-cookie line after the shebang line both are
returned verbatim at the front, in order; and with no shebang an
encoding-cookie first line is returned verbatim at the front.  The
collaborators are only ever applied to `pyRemaining source`, the join of the
lines after this preserved prefix, so the preserved lines are excluded from
comment analysis by construction. -/
theorem strip_python_comments_preserved_head (tokF : List Char → TokOutcome)
    (untokF : List PyTok → UntokOutcome) (source : List Char)
    (keep_keywords : List (List Char)) (r : List Char) (l0 : List Char)
    (rest : List (List Char)) :
    (splitKE source = l0 :: rest → has_shebang l0 = true →
      strip_python_comments tokF untokF source keep_keywords = .ok r →
      ∃ w, r = l0 ++ w)
    ∧ (∀ l1 rest', splitKE source = l0 :: l1 :: rest' → rest = l1 :: rest' →
        has_shebang l0 = true → has_encoding_cookie l1 = true →
        strip_python_comments tokF untokF source keep_keywords = .ok r →
        ∃ w, r = l0 ++ l1 ++ w)
    ∧ (splitKE source = l0 :: rest → has_shebang l0 = false →
        has_encoding_cookie l0 = true →
        strip_python_comments tokF untokF source keep_keywords = .ok r →
        ∃ w, r = l0 ++ w) := by
  have hsrc : ∀ (h : splitKE source = l0 :: rest), source = l0 ++ rest.flatten := by
    intro h
    rw [← splitKE_flatten source, h]
    simp
  refine ⟨?_, ?_, ?_⟩
  · intro h hs hr
    unfold strip_python_comments at hr
    cases htok : tokF (pyRemaining source) with
    | tokenError =>
      rw [htok] at hr
      simp only [Except.ok.injEq] at hr
      exact ⟨rest.flatten, by rw [← hr, hsrc h]⟩
    | raised => rw [htok] at hr; exact absurd hr (by simp)
    | toks ts =>
      rw [htok] at hr
      simp only at hr
      cases hun : untokF (ts.filter fun tk =>
          !tk.isComment || should_keep_py_comment tk.string keep_keywords) with
      | raised =>
        rw [hun] at hr
        simp only [Except.ok.injEq] at hr
        exact ⟨rest.flatten, by rw [← hr, hsrc h]⟩
      | text processed =>
        rw [hun] at hr
        simp only [Except.ok.injEq] at hr
        have hk := pyKeptCount_pos_of_shebang source l0 rest h hs
        obtain ⟨m, hm⟩ : ∃ m, pyKeptCount source = m + 1 :=
          ⟨pyKeptCount source - 1, by omega⟩
        rw [← hr, h, hm]
        exact ⟨(rest.take m).flatten ++ cleanup_empty_lines processed, by simp⟩
  · intro l1 rest' h hrest hs hc hr
    unfold strip_python_comments at hr
    cases htok : tokF (pyRemaining source) with
    | tokenError =>
      rw [htok] at hr
      simp only [Except.ok.injEq] at hr
      refine ⟨rest'.flatten, ?_⟩
      rw [← hr, ← splitKE_flatten source, h]
      simp
    | raised => rw [htok] at hr; exact absurd hr (by simp)
    | toks ts =>
      rw [htok] at hr
      simp only at hr
      cases hun : untokF (ts.filter fun tk =>
          !tk.isComment || should_keep_py_comment tk.string keep_keywords) with
      | raised =>
        rw [hun] at hr
        simp only [Except.ok.injEq] at hr
        refine ⟨rest'.flatten, ?_⟩
        rw [← hr, ← splitKE_flatten source, h]
        simp
      | text processed =>
        rw [hun] at hr
        simp only [Except.ok.injEq] at hr
        rw [← hr, h, pyKeptCount_shebang_cookie source l0 l1 rest' h hs hc]
        exact ⟨cleanup_empty_lines processed, by simp⟩
  · intro h hs hc hr
    unfold strip_python_comments at hr
    cases htok : tokF (pyRemaining source) with
    | tokenError =>
      rw [htok] at hr
      simp only [Except.ok.injEq] at hr
      exact ⟨rest.flatten, by rw [← hr, hsrc h]⟩
    | raised => rw [htok] at hr; exact absurd hr (by simp)
    | toks ts =>
      rw [htok] at hr
      simp only at hr
      cases hun : untokF (ts.filter fun tk =>
          !tk.isComment || should_keep_py_comment tk.string keep_keywords) with
      | raised =>
        rw [hun] at hr
        simp only [Except.ok.injEq] at hr
        exact ⟨rest.flatten, by rw [← hr, hsrc h]⟩
      | text processed =>
        rw [hun] at hr
        simp only [Except.ok.injEq] at hr
        rw [← hr, h, pyKeptCount_cookie_only source l0 rest h hs hc]
        exact ⟨cleanup_empty_lines processed, by simp⟩

/-- Witness for `strip_python_comments_preserved_head`: all three conjuncts
applied at concrete sources, with a tokenizer that reports `TokenError`. -/
theorem strip_python_comments_preserved_head_witness :
    (∃ w, "#!/usr/bin/env python3\nx = 1\n".toList
        = "#!/usr/bin/env python3\n".toList ++ w)
    ∧ (∃ w, "#!/usr/bin/env python3\n# -*- coding: utf-8 -*-\nx = 1\n".toList
        = "#!/usr/bin/env python3\n".toList ++ "# -*- coding: utf-8 -*-\n".toList ++ w)
    ∧ (∃ w, "# -*- coding: utf-8 -*-\ny = 2\n".toList
        = "# -*- coding: utf-8 -*-\n".toList ++ w) := by
  refine ⟨?_, ?_, ?_⟩
  · exact (strip_python_comments_preserved_head (fun _ => TokOutcome.tokenError)
      (fun _ => UntokOutcome.raised)
      "#!/usr/bin/env python3\nx = 1\n".toList []
      "#!/usr/bin/env python3\nx = 1\n".toList
      "#!/usr/bin/env python3\n".toList
      ["x = 1\n".toList]).1 (by decide) (by decide) rfl
  · exact (strip_python_comments_preserved_head (fun _ => TokOutcome.tokenError)
      (fun _ => UntokOutcome.raised)
      "#!/usr/bin/env python3\n# -*- coding: utf-8 -*-\nx = 1\n".toList []
      "#!/usr/bin/env python3\n# -*- coding: utf-8 -*-\nx = 1\n".toList
      "#!/usr/bin/env python3\n".toList
      ["# -*- coding: utf-8 -*-\n".toList, "x = 1\n".toList]).2.1
      "# -*- coding: utf-8 -*-\n".toList ["x = 1\n".toList]
      (by decide) rfl (by decide) (by decide) rfl
  · exact (strip_python_comments_preserved_head (fun _ => TokOutcome.tokenError)
      (fun _ => UntokOutcome.raised)
      "# -*- coding: utf-8 -*-\ny = 2\n".toList []
      "# -*- coding: utf-8 -*-\ny = 2\n".toList
      "# -*- coding: utf-8 -*-\n".toList
      ["y = 2\n".toList]).2.2 (by decide) (by decide) (by decide) rfl

/-- C1 (amended): `strip_python_comments` returns the source unchanged, with
no exception, when the tokenize loop fails with `tokenize.TokenError`, and
also when `untokenize` (or the decode of its result) raises; but a
tokenization failure signalled by any *other* exception class — CPython's
tokenizer raises `IndentationError`, not `TokenError`, for a dedent that
matches no outer indentation level — propagates out of the stripper (to be
caught by the per-file driver). -/
theorem strip_python_comments_failure_policy (tokF : List Char → TokOutcome)
    (untokF : List PyTok → UntokOutcome) (s : List Char) (K : List (List Char)) :
    (tokF (pyRemaining s) = TokOutcome.tokenError →
      strip_python_comments tokF untokF s K = .ok s)
    ∧ (∀ ts, tokF (pyRemaining s) = TokOutcome.toks ts →
        untokF (ts.filter fun tk => !tk.isComment
          || should_keep_py_comment tk.string K) = UntokOutcome.raised →
        strip_python_comments tokF untokF s K = .ok s)
    ∧ (tokF (pyRemaining s) = TokOutcome.raised →
        strip_python_comments tokF untokF s K = .error ()) := by
  refine ⟨fun h => ?_, fun ts h1 h2 => ?_, fun h => ?_⟩
  · unfold strip_python_comments
    rw [h]
  · unfold strip_python_comments
    rw [h1]
    simp only
    rw [h2]
  · unfold strip_python_comments
    rw [h]

/-- C1 counterexample: with a tokenizer behaving as CPython's does on the
dedent-mismatch source `"if x:\n    pass\n  y = 1\n"` — raising
`IndentationError`, which is not a `tokenize.TokenError` — the stripper does
not return the source unchanged: the exception escapes (`Except.error`),
because the script catches only `tokenize.TokenError` around the tokenize
loop.  This refutes "no exception propagates out of the stripper" for
tokenization failures that are indentation errors. -/
theorem strip_python_comments_raise_counterexample :
    strip_python_comments (fun _ => TokOutcome.raised)
      (fun ts => UntokOutcome.text (ts.map (fun tk => tk.string)).flatten)
      "if x:\n    pass\n  y = 1\n".toList []
      = .error ()
    ∧ (Except.error () : Except Unit (List Char))
        ≠ .ok "if x:\n    pass\n  y = 1\n".toList := by
  exact ⟨rfl, by simp⟩

/-- Witness for `strip_python_comments_failure_policy`: a `TokenError` on a
concrete source yields the source unchanged, and an `IndentationError`-style
failure yields a propagated exception. -/
theorem strip_python_comments_failure_policy_witness :
    strip_python_comments (fun _ => TokOutcome.tokenError)
      (fun _ => UntokOutcome.raised) "x = (1,\n".toList []
      = .ok "x = (1,\n".toList
    ∧ strip_python_comments (fun _ => TokOutcome.raised)
      (fun _ => UntokOutcome.raised) "if x:\n  pass\n y\n".toList []
      = .error () := by
  constructor
  · exact (strip_python_comments_failure_policy (fun _ => TokOutcome.tokenError)
      (fun _ => UntokOutcome.raised) "x = (1,\n".toList []).1 rfl
  · exact (strip_python_comments_failure_policy (fun _ => TokOutcome.raised)
      (fun _ => UntokOutcome.raised) "if x:\n  pass\n y\n".toList []).2.2 rfl

/-! ### The shell stripper as a line filter -/

theorem lstripPy_idem (x : List Char) : lstripPy (lstripPy x) = lstripPy x := by
  unfold lstripPy
  induction x with
  | nil => rfl
  | cons c t ih =>
    by_cases h : isPySpace c
    · simp only [List.dropWhile_cons, h, if_true]
      exact ih
    · simp [List.dropWhile_cons, h]

theorem shellBody_eq_filter (keep_keywords : List (List Char))
    (ls : List (List Char)) :
    shellBody keep_keywords ls = ls.filter (shellKeepLine keep_keywords) := by
  induction ls with
  | nil => rfl
  | cons l rest ih =>
    have hl : shellKeepLine keep_keywords l
        = (!(['#'].isPrefixOf (lstripPy l))
            || should_keep_sh_comment (lstripPy l) keep_keywords) := rfl
    have heq : shellBody keep_keywords (l :: rest)
        = if ['#'].isPrefixOf (lstripPy l) then
            (if should_keep_sh_comment (lstripPy l) keep_keywords then
              l :: shellBody keep_keywords rest
            else shellBody keep_keywords rest)
          else l :: shellBody keep_keywords rest := rfl
    rw [heq, List.filter_cons, ih]
    by_cases h1 : ['#'].isPrefixOf (lstripPy l)
    · by_cases h2 : should_keep_sh_comment (lstripPy l) keep_keywords
      · rw [if_pos h1, if_pos h2, if_pos (by rw [hl, h1, h2]; rfl)]
      · rw [if_pos h1, if_neg h2, if_neg (by simp [hl, h1, h2])]
    · rw [if_neg h1, if_pos (by simp [hl, h1])]

/-- C6: `strip_shell_comments` equals the following pipeline: split into
lines; keep a first-line shebang unconditionally; keep every other line `l`
exactly when `shellKeepLine` accepts it; join and normalize whitespace.
Moreover `shellKeepLine` accepts every line that is not a whole-line comment
(so inline trailing comments on code lines are never touched), and accepts a
whole-line comment exactly when some keyword occurs as a substring of the
lower-cased text after the `#` marker. -/
theorem strip_shell_comments_spec (source : List Char)
    (keep_keywords : List (List Char)) :
    (strip_shell_comments source keep_keywords
      = match splitKE source with
        | [] => []
        | l0 :: rest =>
          if has_shebang l0 then
            cleanup_empty_lines (l0 :: rest.filter (shellKeepLine keep_keywords)).flatten
          else
            cleanup_empty_lines
              ((l0 :: rest).filter (shellKeepLine keep_keywords)).flatten)
    ∧ (∀ l : List Char, ['#'].isPrefixOf (lstripPy l) = false →
        shellKeepLine keep_keywords l = true)
    ∧ (∀ l : List Char, ['#'].isPrefixOf (lstripPy l) = true →
        (shellKeepLine keep_keywords l = true
          ↔ ∃ kw ∈ keep_keywords,
              kw <:+: lowerStr (lstripPy ((lstripPy l).drop 1)))) := by
  refine ⟨?_, ?_, ?_⟩
  · unfold strip_shell_comments
    cases hs : splitKE source with
    | nil => rfl
    | cons l0 rest =>
      dsimp only
      by_cases hsh : has_shebang l0
      · rw [if_pos hsh, if_pos hsh, shellBody_eq_filter]
      · rw [if_neg hsh, if_neg hsh, shellBody_eq_filter]
  · intro l h
    unfold shellKeepLine
    rw [h]
    rfl
  · intro l h
    unfold shellKeepLine
    rw [h]
    unfold should_keep_sh_comment
    rw [Bool.not_true, Bool.false_or, List.any_eq_true, lstripPy_idem]
    constructor
    · rintro ⟨kw, hkw, hsub⟩
      exact ⟨kw, hkw, (hasSub_iff_isInfix kw _).mp hsub⟩
    · rintro ⟨kw, hkw, hsub⟩
      exact ⟨kw, hkw, (hasSub_iff_isInfix kw _).mpr hsub⟩

/-- Witness for the conditional conjuncts of `strip_shell_comments_spec`, at
a concrete code line and a concrete kept comment line. -/
theorem strip_shell_comments_spec_witness :
    shellKeepLine ["shellcheck".toList] "echo hi  # inline\n".toList = true
    ∧ (shellKeepLine ["shellcheck".toList] "# shellcheck disable=SC2086\n".toList = true
       ↔ ∃ kw ∈ [("shellcheck".toList : List Char)],
           kw <:+: lowerStr (lstripPy ((lstripPy "# shellcheck disable=SC2086\n".toList).drop 1))) := by
  constructor
  · exact (strip_shell_comments_spec "".toList ["shellcheck".toList]).2.1 _ (by decide)
  · exact (strip_shell_comments_spec "".toList ["shellcheck".toList]).2.2 _ (by decide)

/-! ### The JS line-comment pass, line by line -/

theorem jsLineGo_cons (prev : Option Char) (skipping : Bool) (c : Char)
    (t : List Char) :
    jsLineGo prev skipping (c :: t)
      = if skipping then
          (if c = '\n' then c :: jsLineGo (some '\n') false t
           else jsLineGo prev true t)
        else
          (if c = '/' && t.head? == some '/' && !(prev == some ':') then
            jsLineGo none true t
          else c :: jsLineGo (some c) false t) := rfl

theorem truncFrom_cons (prev : Option Char) (c : Char) (t : List Char) :
    truncFrom prev (c :: t)
      = if c = '/' && t.head? == some '/' && !(prev == some ':') then []
        else c :: truncFrom (some c) t := rfl

theorem jsLineGo_skip_to_nl (prev : Option Char) (w t : List Char)
    (h : '\n' ∉ w) :
    jsLineGo prev true (w ++ '\n' :: t) = '\n' :: jsLineGo (some '\n') false t := by
  induction w generalizing prev with
  | nil => rw [List.nil_append, jsLineGo_cons, if_pos rfl, if_pos rfl]
  | cons c w' ih =>
    have hc : c ≠ '\n' := fun hc => h (by simp [hc])
    rw [List.cons_append, jsLineGo_cons, if_pos rfl, if_neg hc,
      ih prev (fun hm => h (by simp [hm]))]

theorem jsLineGo_skip_to_end (prev : Option Char) (w : List Char) (h : '\n' ∉ w) :
    jsLineGo prev true w = [] := by
  induction w generalizing prev with
  | nil => rfl
  | cons c w' ih =>
    have hc : c ≠ '\n' := fun hc => h (by simp [hc])
    rw [jsLineGo_cons, if_pos rfl, if_neg hc, ih prev (fun hm => h (by simp [hm]))]

theorem jsLineGo_line (prev : Option Char) (a t : List Char) (h : '\n' ∉ a) :
    jsLineGo prev false (a ++ '\n' :: t)
      = truncFrom prev a ++ '\n' :: jsLineGo (some '\n') false t := by
  induction a generalizing prev with
  | nil =>
    rw [List.nil_append, jsLineGo_cons, if_neg (by simp)]
    rw [if_neg (by simp)]
    rfl
  | cons c a' ih =>
    have hc : c ≠ '\n' := fun hcc => h (by simp [hcc])
    have h' : '\n' ∉ a' := fun hm => h (by simp [hm])
    rw [List.cons_append, jsLineGo_cons, if_neg (by simp), truncFrom_cons]
    have hhead : (a' ++ '\n' :: t).head? = if a' = [] then some '\n' else a'.head? := by
      cases a' with
      | nil => rfl
      | cons d a'' => rfl
    by_cases hcond : (c = '/' && a'.head? == some '/' && !(prev == some ':')) = true
    · have hcond2 : (c = '/' && (a' ++ '\n' :: t).head? == some '/'
          && !(prev == some ':')) = true := by
        rw [hhead]
        cases a' with
        | nil => simp at hcond
        | cons d a'' => simpa using hcond
      rw [if_pos hcond2, if_pos hcond, jsLineGo_skip_to_nl none a' t h']
      rfl
    · have hcond2 : ¬(c = '/' && (a' ++ '\n' :: t).head? == some '/'
          && !(prev == some ':')) = true := by
        rw [hhead]
        cases a' with
        | nil =>
          simp only [if_pos rfl]
          intro hx
          simp at hx
        | cons d a'' => simpa using hcond
      rw [if_neg hcond2, if_neg hcond, ih (some c) h', List.cons_append]

theorem jsLineGo_last_line (prev : Option Char) (a : List Char) (h : '\n' ∉ a) :
    jsLineGo prev false a = truncFrom prev a := by
  induction a generalizing prev with
  | nil => rfl
  | cons c a' ih =>
    have h' : '\n' ∉ a' := fun hm => h (by simp [hm])
    rw [jsLineGo_cons, if_neg (by simp), truncFrom_cons]
    by_cases hcond : (c = '/' && a'.head? == some '/' && !(prev == some ':')) = true
    · rw [if_pos hcond, if_pos hcond, jsLineGo_skip_to_end none a' h']
    · rw [if_neg hcond, if_neg hcond, ih (some c) h']

theorem truncFrom_prev_irrel (p q : Option Char) (a : List Char)
    (h : (p == some ':') = (q == some ':')) : truncFrom p a = truncFrom q a := by
  cases a with
  | nil => rfl
  | cons c t => rw [truncFrom_cons, truncFrom_cons, h]

theorem jsLineGo_joinNL (p : Option Char) (C : List (List Char))
    (hC : ∀ l ∈ C, '\n' ∉ l) (hp : (p == some ':') = false) (hne : C ≠ []) :
    jsLineGo p false (joinNL C) = joinNL (C.map (truncFrom none)) := by
  induction C generalizing p with
  | nil => exact absurd rfl hne
  | cons a R ih =>
    cases R with
    | nil =>
      show jsLineGo p false a = joinNL [truncFrom none a]
      rw [jsLineGo_last_line p a (hC a (by simp))]
      exact truncFrom_prev_irrel p none a (by simp [hp])
    | cons b R' =>
      rw [joinNL_cons _ _ (by simp), jsLineGo_line p a _ (hC a (by simp)),
        ih (some '\n') (fun l hl => hC l (by simp [hl])) (by simp) (by simp)]
      rw [truncFrom_prev_irrel p none a (by simp [hp])]
      rw [show (a :: b :: R').map (truncFrom none)
          = truncFrom none a :: (b :: R').map (truncFrom none) from rfl]
      rw [joinNL_cons _ _ (by simp)]

/-- C7: `strip_js_comments` first removes every (non-greedy, multi-line)
`/* ... */` block span (`removeBlockComments`), then removes `//` line
comments, and the `//` pass acts line by line: every line is truncated at its
first `//` occurrence that is not immediately preceded by a colon (the
`(?<!:)` lookbehind), the rest of the line being dropped; `//` occurrences
preceded by a colon do not trigger truncation.  Finally the whitespace
normalizer runs. -/
theorem strip_js_comments_spec (s : List Char) :
    strip_js_comments s
      = cleanup_empty_lines
          (joinNL (((splitNL (removeBlockComments s))).map (truncFrom none))) := by
  show cleanup_empty_lines (removeLineComments (removeBlockComments s)) = _
  unfold removeLineComments
  rw [show jsLineGo none false (removeBlockComments s)
      = jsLineGo none false (joinNL (splitNL (removeBlockComments s))) from by
    rw [joinNL_splitNL]]
  rw [jsLineGo_joinNL none _ (mem_splitNL_no_nl _) rfl (splitNL_ne_nil _)]

/-! ### Block-comment scanning: unterminated openers -/

theorem blockScan_false_nil (p : List Char) : blockScan false p [] = [] := rfl

theorem blockScan_false_open (p : List Char) (t : List Char) :
    blockScan false p ('/' :: '*' :: t) = blockScan true ['*', '/'] t := rfl

theorem blockScan_true_close (p : List Char) (t : List Char) :
    blockScan true p ('*' :: '/' :: t) = blockScan false [] t := rfl

theorem blockScan_false_cons (p : List Char) (c : Char) (t : List Char)
    (h : ¬(c = '/' ∧ t.head? = some '*')) :
    blockScan false p (c :: t) = c :: blockScan false p t := by
  rw [blockScan.eq_def]
  split <;> simp_all

theorem blockScan_true_cons (p : List Char) (c : Char) (t : List Char)
    (h : ¬(c = '*' ∧ t.head? = some '/')) :
    blockScan true p (c :: t) = blockScan true (c :: p) t := by
  rw [blockScan.eq_def]
  split <;> simp_all

theorem blockScan_true_no_close (p t : List Char) (h : ¬ ['*', '/'] <:+: t) :
    blockScan true p t = p.reverse ++ t := by
  induction t generalizing p with
  | nil => simp [blockScan]
  | cons c t' ih =>
    by_cases hm : c = '*' ∧ t'.head? = some '/'
    · exfalso
      rcases hm with ⟨rfl, hh⟩
      cases t' with
      | nil => simp at hh
      | cons d t'' =>
        rw [List.head?_cons, Option.some_inj] at hh
        subst hh
        exact h (List.infix_cons_iff.mpr (Or.inl (by
          rw [List.cons_prefix_cons]
          exact ⟨rfl, List.cons_prefix_cons.mpr ⟨rfl, List.nil_prefix⟩⟩)))
    · rw [blockScan_true_cons p c t' hm, ih (c :: p) (fun hi => h (List.infix_cons hi))]
      simp

theorem dropToClose_close (t : List Char) : dropToClose ('*' :: '/' :: t) = some t := rfl

theorem dropToClose_cons (c : Char) (t : List Char)
    (h : ¬(c = '*' ∧ t.head? = some '/')) : dropToClose (c :: t) = dropToClose t := by
  rw [dropToClose.eq_def]
  split <;> simp_all

theorem dropToClose_none_iff (t : List Char) :
    dropToClose t = none ↔ ¬ ['*', '/'] <:+: t := by
  induction t with
  | nil =>
    simp only [dropToClose]
    constructor
    · intro _ hi
      simpa using List.eq_nil_of_infix_nil hi
    · intro _; trivial
  | cons c t' ih =>
    by_cases hm : c = '*' ∧ t'.head? = some '/'
    · rcases hm with ⟨rfl, hh⟩
      cases t' with
      | nil => simp at hh
      | cons d t'' =>
        rw [List.head?_cons, Option.some_inj] at hh
        subst hh
        rw [dropToClose_close]
        constructor
        · intro hx; exact absurd hx (by simp)
        · intro hx
          exfalso
          exact hx (List.infix_cons_iff.mpr (Or.inl (by
            rw [List.cons_prefix_cons]
            exact ⟨rfl, List.cons_prefix_cons.mpr ⟨rfl, List.nil_prefix⟩⟩)))
    · rw [dropToClose_cons c t' hm, ih]
      constructor
      · intro hni hi
        rcases List.infix_cons_iff.mp hi with hp | hi'
        · rcases List.cons_prefix_cons.mp hp with ⟨hc, hp'⟩
          apply hm
          refine ⟨hc.symm, ?_⟩
          cases t' with
          | nil => simp at hp'
          | cons d t'' =>
            rcases List.cons_prefix_cons.mp hp' with ⟨hd, -⟩
            rw [List.head?_cons, hd]
        · exact hni hi'
      · intro hni hi
        exact hni (List.infix_cons hi)

theorem dropToClose_suffix (t r : List Char) (h : dropToClose t = some r) : r <:+ t := by
  induction t with
  | nil => simp [dropToClose] at h
  | cons c t' ih =>
    by_cases hm : c = '*' ∧ t'.head? = some '/'
    · rcases hm with ⟨rfl, hh⟩
      cases t' with
      | nil => simp at hh
      | cons d t'' =>
        rw [List.head?_cons, Option.some_inj] at hh
        subst hh
        rw [dropToClose_close, Option.some_inj] at h
        subst h
        exact (List.suffix_cons '/' t'').trans (List.suffix_cons '*' _)
    · rw [dropToClose_cons c t' hm] at h
      exact (ih h).trans (List.suffix_cons c t')

theorem dropToClose_length (t r : List Char) (h : dropToClose t = some r) :
    r.length + 2 ≤ t.length := by
  induction t with
  | nil => simp [dropToClose] at h
  | cons c t' ih =>
    by_cases hm : c = '*' ∧ t'.head? = some '/'
    · rcases hm with ⟨rfl, hh⟩
      cases t' with
      | nil => simp at hh
      | cons d t'' =>
        rw [List.head?_cons, Option.some_inj] at hh
        subst hh
        rw [dropToClose_close, Option.some_inj] at h
        subst h
        simp only [List.length_cons]
        omega
    · rw [dropToClose_cons c t' hm] at h
      have := ih h
      simp only [List.length_cons]
      omega

theorem dropToClose_append (a w r : List Char) (h : dropToClose a = some r) :
    dropToClose (a ++ w) = some (r ++ w) := by
  induction a with
  | nil => simp [dropToClose] at h
  | cons c a' ih =>
    by_cases hm : c = '*' ∧ a'.head? = some '/'
    · rcases hm with ⟨rfl, hh⟩
      cases a' with
      | nil => simp at hh
      | cons d a'' =>
        rw [List.head?_cons, Option.some_inj] at hh
        subst hh
        rw [dropToClose_close, Option.some_inj] at h
        subst h
        rw [List.cons_append, List.cons_append, dropToClose_close]
    · have hm2 : ¬(c = '*' ∧ (a' ++ w).head? = some '/') := by
        rintro ⟨rfl, hh⟩
        apply hm
        refine ⟨rfl, ?_⟩
        cases a' with
        | nil =>
          exfalso
          rw [List.nil_append] at hh
          have := dropToClose_cons '*' ([] : List Char) (by simp)
          rw [this] at h
          simp [dropToClose] at h
        | cons d a'' => simpa using hh
      rw [List.cons_append, dropToClose_cons c _ hm2, ih]
      rwa [dropToClose_cons c a' hm] at h

theorem blockScan_true_resume (p t r : List Char) (h : dropToClose t = some r) :
    blockScan true p t = blockScan false [] r := by
  induction t generalizing p with
  | nil => simp [dropToClose] at h
  | cons c t' ih =>
    by_cases hm : c = '*' ∧ t'.head? = some '/'
    · rcases hm with ⟨rfl, hh⟩
      cases t' with
      | nil => simp at hh
      | cons d t'' =>
        rw [List.head?_cons, Option.some_inj] at hh
        subst hh
        rw [dropToClose_close, Option.some_inj] at h
        subst h
        exact blockScan_true_close p _
    · rw [dropToClose_cons c t' hm] at h
      rw [blockScan_true_cons p c t' hm, ih (c :: p) h]

theorem blockScan_false_pending (p q t : List Char) :
    blockScan false p t = blockScan false q t := by
  induction t with
  | nil => rfl
  | cons c t' ih =>
    by_cases hm : c = '/' ∧ t'.head? = some '*'
    · rcases hm with ⟨rfl, hh⟩
      cases t' with
      | nil => simp at hh
      | cons d t'' =>
        rw [List.head?_cons, Option.some_inj] at hh
        subst hh
        rw [blockScan_false_open, blockScan_false_open]
    · rw [blockScan_false_cons p c t' hm, blockScan_false_cons q c t' hm, ih]

theorem suffix_getLast? (l m : List Char) (h : l <:+ m) (hne : l ≠ []) :
    m.getLast? = l.getLast? := by
  obtain ⟨w, rfl⟩ := h
  rw [List.getLast?_append]
  cases hl : l.getLast? with
  | none => exact absurd (List.getLast?_eq_none_iff.mp hl) hne
  | some c => rfl

theorem pair_infix_append_none (x y : Char) (b : List Char)
    (hb : ¬ [x, y] <:+: b) :
    ∀ a : List Char, ¬ [x, y] <:+: a →
      ¬(a.getLast? = some x ∧ b.head? = some y) → ¬ [x, y] <:+: (a ++ b) := by
  intro a
  induction a with
  | nil =>
    intro _ _ hi
    rw [List.nil_append] at hi
    exact hb hi
  | cons c a' ih =>
    intro ha hbd hi
    rcases List.infix_cons_iff.mp hi with hp | hi'
    · rcases List.cons_prefix_cons.mp hp with ⟨hc, hp'⟩
      cases a' with
      | nil =>
        simp only [List.append_eq, List.nil_append] at hp'
        apply hbd
        refine ⟨by simp [← hc], ?_⟩
        cases b with
        | nil => simp at hp'
        | cons e b' =>
          rcases List.cons_prefix_cons.mp hp' with ⟨hy, -⟩
          rw [List.head?_cons, hy]
      | cons d a'' =>
        simp only [List.append_eq, List.cons_append] at hp'
        rcases List.cons_prefix_cons.mp hp' with ⟨hy, -⟩
        apply ha
        refine List.infix_cons_iff.mpr (Or.inl ?_)
        rw [List.cons_prefix_cons]
        exact ⟨hc, by rw [List.cons_prefix_cons]; exact ⟨hy, List.nil_prefix⟩⟩
    · cases a' with
      | nil =>
        simp only [List.append_eq, List.nil_append] at hi'
        exact hb hi'
      | cons d a'' =>
        refine ih (fun hx => ha (List.infix_cons hx)) ?_ hi'
        rintro ⟨hlast, hhead⟩
        exact hbd ⟨by rwa [List.getLast?_cons_cons], hhead⟩

theorem css_block_append_opener :
    ∀ (n : Nat) (u v : List Char), u.length ≤ n →
      u.getLast? ≠ some '*' → ¬ ['*', '/'] <:+: ('*' :: v) →
      blockScan false [] (u ++ '/' :: '*' :: v)
        = blockScan false [] u ++ '/' :: '*' :: v := by
  intro n
  induction n with
  | zero =>
    intro u v hlen hlast hv
    have hu : u = [] := List.length_eq_zero.mp (by omega)
    subst hu
    rw [List.nil_append, blockScan_false_nil, List.nil_append, blockScan_false_open]
    refine blockScan_true_no_close _ _ (fun hi => hv (List.infix_cons hi))
  | succ n ih =>
    intro u v hlen hlast hv
    have hXni : ¬ ['*', '/'] <:+: ('/' :: '*' :: v) := by
      intro hi
      rcases List.infix_cons_iff.mp hi with hp | hi'
      · rcases List.cons_prefix_cons.mp hp with ⟨hc, -⟩
        exact absurd hc (by decide)
      · exact hv hi'
    cases u with
    | nil =>
      rw [List.nil_append, blockScan_false_nil, List.nil_append, blockScan_false_open]
      exact blockScan_true_no_close _ _ (fun hi => hv (List.infix_cons hi))
    | cons c u2 =>
      by_cases hop : c = '/' ∧ u2.head? = some '*'
      · rcases hop with ⟨rfl, hh⟩
        cases u2 with
        | nil => simp at hh
        | cons e u' =>
          rw [List.head?_cons, Option.some_inj] at hh
          subst hh
          rw [List.cons_append, List.cons_append, blockScan_false_open,
            blockScan_false_open]
          cases hdc : dropToClose u' with
          | some r =>
            rw [blockScan_true_resume _ _ _ (dropToClose_append u' _ r hdc),
              blockScan_true_resume _ _ _ hdc]
            have hrlen : r.length ≤ n := by
              have := dropToClose_length u' r hdc
              simp only [List.length_cons] at hlen
              omega
            have hrlast : r.getLast? ≠ some '*' := by
              cases hr : r with
              | nil => simp
              | cons z zs =>
                rw [← hr]
                have hsuf := dropToClose_suffix u' r hdc
                have hrne : r ≠ [] := by simp [hr]
                rw [← suffix_getLast? r u' hsuf hrne]
                have hu'ne : u' ≠ [] := by
                  intro hu'
                  subst hu'
                  simp [dropToClose] at hdc
                intro hx
                apply hlast
                rw [List.getLast?_cons_cons]
                cases u' with
                | nil => exact absurd rfl hu'ne
                | cons w ws => rwa [List.getLast?_cons_cons]
            exact ih r v hrlen hrlast hv
          | none =>
            have hni' : ¬ ['*', '/'] <:+: u' := (dropToClose_none_iff u').mp hdc
            have hbig : ¬ ['*', '/'] <:+: (u' ++ '/' :: '*' :: v) := by
              refine pair_infix_append_none '*' '/' _ hXni u' hni' ?_
              rintro ⟨hlastu, -⟩
              apply hlast
              have hu'ne : u' ≠ [] := by
                intro hu'
                subst hu'
                simp at hlastu
              rw [List.getLast?_cons_cons]
              cases u' with
              | nil => exact absurd rfl hu'ne
              | cons w ws => rwa [List.getLast?_cons_cons]
            rw [blockScan_true_no_close _ _ hbig, blockScan_true_no_close _ _ hni']
            simp
      · have hop2 : ¬(c = '/' ∧ (u2 ++ '/' :: '*' :: v).head? = some '*') := by
          rintro ⟨rfl, hh⟩
          cases u2 with
          | nil => simp at hh
          | cons d u3 =>
            rw [List.cons_append, List.head?_cons] at hh
            exact hop ⟨rfl, by rwa [List.head?_cons]⟩
        rw [List.cons_append, blockScan_false_cons _ c _ hop2,
          blockScan_false_cons _ c _ hop]
        have hlast2 : u2.getLast? ≠ some '*' := by
          cases hu2 : u2 with
          | nil => simp
          | cons d u3 =>
            rw [← hu2]
            intro hx
            apply hlast
            rw [hu2, List.getLast?_cons_cons, ← hu2]
            exact hx
        rw [ih u2 v (by simp only [List.length_cons] at hlen; omega) hlast2 hv]
        rfl

/-! ### HTML comment scanning: unterminated openers -/

theorem htmlScan_false_nil (p : List Char) : htmlScan false p [] = [] := rfl

theorem htmlScan_false_open (p t : List Char) :
    htmlScan false p ('<' :: '!' :: '-' :: '-' :: t)
      = htmlScan true ['-', '-', '!', '<'] t := rfl

theorem htmlScan_true_close (p t : List Char) :
    htmlScan true p ('-' :: '-' :: '>' :: t) = htmlScan false [] t := rfl

theorem htmlScan_false_cons (p : List Char) (c : Char) (t : List Char)
    (h : ¬(c = '<' ∧ t.head? = some '!' ∧ t.tail.head? = some '-'
        ∧ t.tail.tail.head? = some '-')) :
    htmlScan false p (c :: t) = c :: htmlScan false p t := by
  rw [htmlScan.eq_def]
  split <;> simp_all

theorem htmlScan_true_cons (p : List Char) (c : Char) (t : List Char)
    (h : ¬(c = '-' ∧ t.head? = some '-' ∧ t.tail.head? = some '>')) :
    htmlScan true p (c :: t) = htmlScan true (c :: p) t := by
  rw [htmlScan.eq_def]
  split <;> simp_all

theorem htmlScan_true_no_close (p t : List Char) (h : ¬ ['-', '-', '>'] <:+: t) :
    htmlScan true p t = p.reverse ++ t := by
  induction t generalizing p with
  | nil => simp [htmlScan]
  | cons c t' ih =>
    by_cases hm : c = '-' ∧ t'.head? = some '-' ∧ t'.tail.head? = some '>'
    · exfalso
      rcases hm with ⟨rfl, h1, h2⟩
      cases t' with
      | nil => simp at h1
      | cons d t'' =>
        rw [List.head?_cons, Option.some_inj] at h1
        subst h1
        cases t'' with
        | nil => simp at h2
        | cons e t3 =>
          simp only [List.tail_cons, List.head?_cons, Option.some_inj] at h2
          subst h2
          refine h (List.infix_cons_iff.mpr (Or.inl ?_))
          rw [List.cons_prefix_cons]
          refine ⟨rfl, ?_⟩
          rw [List.cons_prefix_cons]
          refine ⟨rfl, ?_⟩
          rw [List.cons_prefix_cons]
          exact ⟨rfl, List.nil_prefix⟩
    · rw [htmlScan_true_cons p c t' hm, ih (c :: p) (fun hi => h (List.infix_cons hi))]
      simp

theorem dropToArrow_close (t : List Char) :
    dropToArrow ('-' :: '-' :: '>' :: t) = some t := rfl

theorem dropToArrow_cons (c : Char) (t : List Char)
    (h : ¬(c = '-' ∧ t.head? = some '-' ∧ t.tail.head? = some '>')) :
    dropToArrow (c :: t) = dropToArrow t := by
  rw [dropToArrow.eq_def]
  split <;> simp_all

theorem dropToArrow_none_iff (t : List Char) :
    dropToArrow t = none ↔ ¬ ['-', '-', '>'] <:+: t := by
  induction t with
  | nil =>
    simp only [dropToArrow]
    constructor
    · intro _ hi
      simpa using List.eq_nil_of_infix_nil hi
    · intro _; trivial
  | cons c t' ih =>
    by_cases hm : c = '-' ∧ t'.head? = some '-' ∧ t'.tail.head? = some '>'
    · rcases hm with ⟨rfl, h1, h2⟩
      cases t' with
      | nil => simp at h1
      | cons d t'' =>
        rw [List.head?_cons, Option.some_inj] at h1
        subst h1
        cases t'' with
        | nil => simp at h2
        | cons e t3 =>
          simp only [List.tail_cons, List.head?_cons, Option.some_inj] at h2
          subst h2
          rw [dropToArrow_close]
          constructor
          · intro hx; exact absurd hx (by simp)
          · intro hx
            exfalso
            refine hx (List.infix_cons_iff.mpr (Or.inl ?_))
            rw [List.cons_prefix_cons]
            refine ⟨rfl, ?_⟩
            rw [List.cons_prefix_cons]
            refine ⟨rfl, ?_⟩
            rw [List.cons_prefix_cons]
            exact ⟨rfl, List.nil_prefix⟩
    · rw [dropToArrow_cons c t' hm, ih]
      constructor
      · intro hni hi
        rcases List.infix_cons_iff.mp hi with hp | hi'
        · rcases List.cons_prefix_cons.mp hp with ⟨hc, hp'⟩
          apply hm
          refine ⟨hc.symm, ?_⟩
          cases t' with
          | nil => simp at hp'
          | cons d t'' =>
            rcases List.cons_prefix_cons.mp hp' with ⟨hd, hp''⟩
            refine ⟨by rw [List.head?_cons, hd], ?_⟩
            cases t'' with
            | nil => simp at hp''
            | cons e t3 =>
              rcases List.cons_prefix_cons.mp hp'' with ⟨he, -⟩
              rw [List.tail_cons, List.head?_cons, he]
        · exact hni hi'
      · intro hni hi
        exact hni (List.infix_cons hi)

theorem dropToArrow_suffix (t r : List Char) (h : dropToArrow t = some r) : r <:+ t := by
  induction t with
  | nil => simp [dropToArrow] at h
  | cons c t' ih =>
    by_cases hm : c = '-' ∧ t'.head? = some '-' ∧ t'.tail.head? = some '>'
    · rcases hm with ⟨rfl, h1, h2⟩
      cases t' with
      | nil => simp at h1
      | cons d t'' =>
        rw [List.head?_cons, Option.some_inj] at h1
        subst h1
        cases t'' with
        | nil => simp at h2
        | cons e t3 =>
          simp only [List.tail_cons, List.head?_cons, Option.some_inj] at h2
          subst h2
          rw [dropToArrow_close, Option.some_inj] at h
          subst h
          exact ((List.suffix_cons '>' t3).trans (List.suffix_cons '-' _)).trans
            (List.suffix_cons '-' _)
    · rw [dropToArrow_cons c t' hm] at h
      exact (ih h).trans (List.suffix_cons c t')

theorem dropToArrow_length (t r : List Char) (h : dropToArrow t = some r) :
    r.length + 3 ≤ t.length := by
  induction t with
  | nil => simp [dropToArrow] at h
  | cons c t' ih =>
    by_cases hm : c = '-' ∧ t'.head? = some '-' ∧ t'.tail.head? = some '>'
    · rcases hm with ⟨rfl, h1, h2⟩
      cases t' with
      | nil => simp at h1
      | cons d t'' =>
        rw [List.head?_cons, Option.some_inj] at h1
        subst h1
        cases t'' with
        | nil => simp at h2
        | cons e t3 =>
          simp only [List.tail_cons, List.head?_cons, Option.some_inj] at h2
          subst h2
          rw [dropToArrow_close, Option.some_inj] at h
          subst h
          simp only [List.length_cons]
          omega
    · rw [dropToArrow_cons c t' hm] at h
      have := ih h
      simp only [List.length_cons]
      omega

theorem dropToArrow_append (a w r : List Char) (h : dropToArrow a = some r) :
    dropToArrow (a ++ w) = some (r ++ w) := by
  induction a with
  | nil => simp [dropToArrow] at h
  | cons c a' ih =>
    by_cases hm : c = '-' ∧ a'.head? = some '-' ∧ a'.tail.head? = some '>'
    · rcases hm with ⟨rfl, h1, h2⟩
      cases a' with
      | nil => simp at h1
      | cons d a'' =>
        rw [List.head?_cons, Option.some_inj] at h1
        subst h1
        cases a'' with
        | nil => simp at h2
        | cons e a3 =>
          simp only [List.tail_cons, List.head?_cons, Option.some_inj] at h2
          subst h2
          rw [dropToArrow_close, Option.some_inj] at h
          subst h
          rw [List.cons_append, List.cons_append, List.cons_append, dropToArrow_close]
    · have hm2 : ¬(c = '-' ∧ (a' ++ w).head? = some '-'
          ∧ (a' ++ w).tail.head? = some '>') := by
        rintro ⟨rfl, hh1, hh2⟩
        rw [dropToArrow_cons '-' a' hm] at h
        apply hm
        refine ⟨rfl, ?_, ?_⟩
        · cases a' with
          | nil =>
            exfalso
            simp [dropToArrow] at h
          | cons d a'' => simpa using hh1
        · cases a' with
          | nil =>
            exfalso
            simp [dropToArrow] at h
          | cons d a'' =>
            cases a'' with
            | nil =>
              exfalso
              have hnone : dropToArrow [d] = dropToArrow [] := by
                apply dropToArrow_cons
                rintro ⟨-, hx, -⟩
                simp at hx
              rw [hnone] at h
              simp [dropToArrow] at h
            | cons e a3 =>
              simp only [List.cons_append, List.tail_cons, List.head?_cons] at hh2 ⊢
              exact hh2
      rw [List.cons_append, dropToArrow_cons c _ hm2, ih]
      rwa [dropToArrow_cons c a' hm] at h

theorem htmlScan_true_resume (p t r : List Char) (h : dropToArrow t = some r) :
    htmlScan true p t = htmlScan false [] r := by
  induction t generalizing p with
  | nil => simp [dropToArrow] at h
  | cons c t' ih =>
    by_cases hm : c = '-' ∧ t'.head? = some '-' ∧ t'.tail.head? = some '>'
    · rcases hm with ⟨rfl, h1, h2⟩
      cases t' with
      | nil => simp at h1
      | cons d t'' =>
        rw [List.head?_cons, Option.some_inj] at h1
        subst h1
        cases t'' with
        | nil => simp at h2
        | cons e t3 =>
          simp only [List.tail_cons, List.head?_cons, Option.some_inj] at h2
          subst h2
          rw [dropToArrow_close, Option.some_inj] at h
          subst h
          exact htmlScan_true_close p _
    · rw [dropToArrow_cons c t' hm] at h
      rw [htmlScan_true_cons p c t' hm, ih (c :: p) h]

theorem triple_infix_append_none (x y z : Char) (b : List Char)
    (hb : ¬ [x, y, z] <:+: b) :
    ∀ a : List Char, ¬ [x, y, z] <:+: a →
      ¬(a.getLast? = some x ∧ [y, z] <+: b) →
      ¬([x, y] <:+ a ∧ [z] <+: b) → ¬ [x, y, z] <:+: (a ++ b) := by
  intro a
  induction a with
  | nil =>
    intro _ _ _ hi
    rw [List.nil_append] at hi
    exact hb hi
  | cons c a' ih =>
    intro ha hbd1 hbd2 hi
    rcases List.infix_cons_iff.mp hi with hp | hi'
    · rcases List.cons_prefix_cons.mp hp with ⟨hc, hp'⟩
      cases a' with
      | nil =>
        simp only [List.append_eq, List.nil_append] at hp'
        exact hbd1 ⟨by simp [← hc], hp'⟩
      | cons d a'' =>
        simp only [List.append_eq, List.cons_append] at hp'
        rcases List.cons_prefix_cons.mp hp' with ⟨hy, hp''⟩
        cases a'' with
        | nil =>
          simp only [List.nil_append] at hp''
          refine hbd2 ⟨?_, hp''⟩
          rw [← hc, ← hy]
        | cons e a3 =>
          rcases List.cons_prefix_cons.mp hp'' with ⟨hz, -⟩
          apply ha
          refine List.infix_cons_iff.mpr (Or.inl ?_)
          rw [List.cons_prefix_cons]
          refine ⟨hc, ?_⟩
          rw [List.cons_prefix_cons]
          refine ⟨hy, ?_⟩
          rw [List.cons_prefix_cons]
          exact ⟨hz, List.nil_prefix⟩
    · cases a' with
      | nil =>
        simp only [List.append_eq, List.nil_append] at hi'
        exact hb hi'
      | cons d a'' =>
        refine ih (fun hx => ha (List.infix_cons hx)) ?_ ?_ hi'
        · rintro ⟨hlast, hpre⟩
          exact hbd1 ⟨by rwa [List.getLast?_cons_cons], hpre⟩
        · rintro ⟨hsuf, hpre⟩
          exact hbd2 ⟨hsuf.trans (List.suffix_cons c _), hpre⟩

theorem html_block_append_opener :
    ∀ (n : Nat) (u v : List Char), u.length ≤ n →
      ¬ ['-', '-', '>'] <:+: ('-' :: '-' :: v) →
      htmlScan false [] (u ++ '<' :: '!' :: '-' :: '-' :: v)
        = htmlScan false [] u ++ '<' :: '!' :: '-' :: '-' :: v := by
  intro n
  have hYni : ∀ v : List Char, ¬ ['-', '-', '>'] <:+: ('-' :: '-' :: v) →
      ¬ ['-', '-', '>'] <:+: ('<' :: '!' :: '-' :: '-' :: v) := by
    intro v hv hi
    rcases List.infix_cons_iff.mp hi with hp | hi'
    · rcases List.cons_prefix_cons.mp hp with ⟨hc, -⟩
      exact absurd hc (by decide)
    · rcases List.infix_cons_iff.mp hi' with hp | hi'' 
      · rcases List.cons_prefix_cons.mp hp with ⟨hc, -⟩
        exact absurd hc (by decide)
      · exact hv hi''
  induction n with
  | zero =>
    intro u v hlen hv
    have hu : u = [] := List.length_eq_zero.mp (by omega)
    subst hu
    rw [List.nil_append, htmlScan_false_nil, List.nil_append, htmlScan_false_open]
    exact htmlScan_true_no_close _ _ (fun hi => hv (List.infix_cons (List.infix_cons hi)))
  | succ n ih =>
    intro u v hlen hv
    cases u with
    | nil =>
      rw [List.nil_append, htmlScan_false_nil, List.nil_append, htmlScan_false_open]
      exact htmlScan_true_no_close _ _
        (fun hi => hv (List.infix_cons (List.infix_cons hi)))
    | cons c u2 =>
      by_cases hop : c = '<' ∧ u2.head? = some '!' ∧ u2.tail.head? = some '-'
          ∧ u2.tail.tail.head? = some '-'
      · rcases hop with ⟨rfl, h1, h2, h3⟩
        cases u2 with
        | nil => simp at h1
        | cons d u3 =>
          rw [List.head?_cons, Option.some_inj] at h1
          subst h1
          cases u3 with
          | nil => simp at h2
          | cons e u4 =>
            simp only [List.tail_cons, List.head?_cons, Option.some_inj] at h2
            subst h2
            cases u4 with
            | nil => simp at h3
            | cons f u' =>
              simp only [List.tail_cons, List.head?_cons, Option.some_inj] at h3
              subst h3
              rw [List.cons_append, List.cons_append, List.cons_append,
                List.cons_append, htmlScan_false_open, htmlScan_false_open]
              cases hdc : dropToArrow u' with
              | some r =>
                rw [htmlScan_true_resume _ _ _ (dropToArrow_append u' _ r hdc),
                  htmlScan_true_resume _ _ _ hdc]
                have hrlen : r.length ≤ n := by
                  have := dropToArrow_length u' r hdc
                  simp only [List.length_cons] at hlen
                  omega
                exact ih r v hrlen hv
              | none =>
                have hni' : ¬ ['-', '-', '>'] <:+: u' := (dropToArrow_none_iff u').mp hdc
                have hbig : ¬ ['-', '-', '>'] <:+:
                    (u' ++ '<' :: '!' :: '-' :: '-' :: v) := by
                  refine triple_infix_append_none '-' '-' '>' _ (hYni v hv) u' hni' ?_ ?_
                  · rintro ⟨-, hpre⟩
                    rcases List.cons_prefix_cons.mp hpre with ⟨hc, -⟩
                    exact absurd hc (by decide)
                  · rintro ⟨-, hpre⟩
                    rcases List.cons_prefix_cons.mp hpre with ⟨hc, -⟩
                    exact absurd hc (by decide)
                rw [htmlScan_true_no_close _ _ hbig, htmlScan_true_no_close _ _ hni']
                simp
      · have hop2 : ¬(c = '<' ∧ (u2 ++ '<' :: '!' :: '-' :: '-' :: v).head? = some '!'
            ∧ (u2 ++ '<' :: '!' :: '-' :: '-' :: v).tail.head? = some '-'
            ∧ (u2 ++ '<' :: '!' :: '-' :: '-' :: v).tail.tail.head? = some '-') := by
          rintro ⟨rfl, hh1, hh2, hh3⟩
          apply hop
          refine ⟨rfl, ?_, ?_, ?_⟩
          · cases u2 with
            | nil => simp at hh1
            | cons d u3 => simpa using hh1
          · cases u2 with
            | nil => simp at hh1
            | cons d u3 =>
              cases u3 with
              | nil =>
                exfalso
                simp only [List.cons_append, List.nil_append, List.tail_cons,
                  List.head?_cons, Option.some_inj] at hh2
                exact absurd hh2 (by decide)
              | cons e u4 =>
                simp only [List.cons_append, List.tail_cons, List.head?_cons] at hh2 ⊢
                exact hh2
          · cases u2 with
            | nil => simp at hh1
            | cons d u3 =>
              cases u3 with
              | nil =>
                exfalso
                simp only [List.cons_append, List.nil_append, List.tail_cons,
                  List.head?_cons, Option.some_inj] at hh2
                exact absurd hh2 (by decide)
              | cons e u4 =>
                cases u4 with
                | nil =>
                  exfalso
                  simp only [List.cons_append, List.nil_append, List.tail_cons,
                    List.head?_cons, Option.some_inj] at hh3
                  exact absurd hh3 (by decide)
                | cons f u5 =>
                  simp only [List.cons_append, List.tail_cons, List.head?_cons] at hh3 ⊢
                  exact hh3
        rw [List.cons_append, htmlScan_false_cons _ c _ hop2,
          htmlScan_false_cons _ c _ hop]
        rw [ih u2 v (by simp only [List.length_cons] at hlen; omega) hv]
        rfl

/-- C10 (amended): an unterminated comment opener survives.  HTML: if no
`-->` occurs at or after the two `--` characters of a `<!--` occurrence, the
occurrence and all text after it are left in place, with only whitespace
normalization applied.  CSS and JS: the same holds for a `/*` occurrence with
no `*/` at or after its `*`, provided additionally that the character
immediately before the occurrence is not `*` (otherwise the occurrence's `/`
can complete the closing `*/` of an earlier comment and be consumed with it —
see the counterexample); for JS the block pass leaves the occurrence and its
tail intact, but the `//` line-comment pass (and whitespace normalization)
still runs over them. -/
theorem unterminated_opener_preserved (u v : List Char) :
    (¬ ['-', '-', '>'] <:+: ('-' :: '-' :: v) →
      strip_html_comments (u ++ '<' :: '!' :: '-' :: '-' :: v)
        = cleanup_empty_lines (removeHtmlComments u ++ '<' :: '!' :: '-' :: '-' :: v))
    ∧ (u.getLast? ≠ some '*' → ¬ ['*', '/'] <:+: ('*' :: v) →
      strip_css_comments (u ++ '/' :: '*' :: v)
        = cleanup_empty_lines (removeBlockComments u ++ '/' :: '*' :: v))
    ∧ (u.getLast? ≠ some '*' → ¬ ['*', '/'] <:+: ('*' :: v) →
      strip_js_comments (u ++ '/' :: '*' :: v)
        = cleanup_empty_lines
            (removeLineComments (removeBlockComments u ++ '/' :: '*' :: v))) := by
  refine ⟨fun hv => ?_, fun hlast hv => ?_, fun hlast hv => ?_⟩
  · unfold strip_html_comments removeHtmlComments
    rw [html_block_append_opener u.length u v (le_refl _) hv]
  · unfold strip_css_comments removeBlockComments
    rw [css_block_append_opener u.length u v (le_refl _) hlast hv]
  · unfold strip_js_comments removeBlockComments removeLineComments
    rw [css_block_append_opener u.length u v (le_refl _) hlast hv]

/-- C10 counterexample.  CSS: in `"/* a */* b"` the second `/*` (at index 6)
has no `*/` anywhere after it, yet the stripper consumes its `/` as part of
the `*/` closing the first comment: the output `"* b\n"` does not contain the
occurrence (`hasSub "/*" = false`), so the occurrence is not left in place.
JS: in `"/* a\n// b\n"` the `/*` is unterminated, yet the text after it is
not merely whitespace-normalized — the `// b` line comment is removed. -/
theorem unterminated_opener_counterexample :
    strip_css_comments "/* a */* b".toList = "* b\n".toList
    ∧ hasSub ['/', '*'] (strip_css_comments "/* a */* b".toList) = false
    ∧ hasSub ['*', '/'] " b".toList = false
    ∧ strip_js_comments "/* a\n// b\n".toList = "/* a\n\n".toList
    ∧ hasSub ['/', '/'] (strip_js_comments "/* a\n// b\n".toList) = false := by
  decide

/-- Witness for `unterminated_opener_preserved` at concrete splits. -/
theorem unterminated_opener_preserved_witness :
    strip_html_comments ("a<!--b-->c".toList ++ '<' :: '!' :: '-' :: '-' :: "d".toList)
      = cleanup_empty_lines
          (removeHtmlComments "a<!--b-->c".toList ++ '<' :: '!' :: '-' :: '-' :: "d".toList)
    ∧ strip_css_comments ("x/*y*/z".toList ++ '/' :: '*' :: "w".toList)
      = cleanup_empty_lines
          (removeBlockComments "x/*y*/z".toList ++ '/' :: '*' :: "w".toList)
    ∧ strip_js_comments ("p/*q*/r".toList ++ '/' :: '*' :: "s//t".toList)
      = cleanup_empty_lines
          (removeLineComments
            (removeBlockComments "p/*q*/r".toList ++ '/' :: '*' :: "s//t".toList)) := by
  refine ⟨?_, ?_, ?_⟩
  · exact (unterminated_opener_preserved "a<!--b-->c".toList "d".toList).1 (by decide)
  · exact (unterminated_opener_preserved "x/*y*/z".toList "w".toList).2.1
      (by decide) (by decide)
  · exact (unterminated_opener_preserved "p/*q*/r".toList "s//t".toList).2.2
      (by decide) (by decide)

/-! ### Character-level and stripping facts for the shell idempotence analysis -/

theorem isHTab_isPySpace (c : Char) (h : isHTab c = true) : isPySpace c = true := by
  simp only [isHTab, Bool.or_eq_true, decide_eq_true_eq] at h
  rcases h with rfl | rfl <;> decide

theorem lstripPy_eq_nil_iff (l : List Char) :
    lstripPy l = [] ↔ ∀ c ∈ l, isPySpace c = true := by
  unfold lstripPy
  exact List.dropWhile_eq_nil_iff

theorem head_lstripPy_not_space (l : List Char) (c : Char) (t : List Char)
    (h : lstripPy l = c :: t) : isPySpace c = false := by
  induction l with
  | nil => simp [lstripPy] at h
  | cons d l' ih =>
    by_cases hd : isPySpace d
    · simp only [lstripPy, List.dropWhile_cons, hd, if_true] at h
      exact ih h
    · simp only [lstripPy, List.dropWhile_cons] at h
      rw [if_neg hd] at h
      injection h with h1 h2
      subst h1
      simpa using hd

theorem lstripPy_append (a b : List Char) (h : lstripPy a ≠ []) :
    lstripPy (a ++ b) = lstripPy a ++ b := by
  show (a ++ b).dropWhile isPySpace = a.dropWhile isPySpace ++ b
  rw [List.dropWhile_append, if_neg (by simpa [lstripPy, List.isEmpty_iff] using h)]

theorem lstripPy_append_nil (a b : List Char) (h : lstripPy a = []) :
    lstripPy (a ++ b) = lstripPy b := by
  show (a ++ b).dropWhile isPySpace = b.dropWhile isPySpace
  rw [List.dropWhile_append, if_pos (by simpa [lstripPy, List.isEmpty_iff] using h)]

theorem lstripPy_rstripHT_comm (l : List Char) :
    lstripPy (rstripHT l) = rstripHT (lstripPy l) := by
  induction l with
  | nil => rfl
  | cons c t ih =>
    by_cases hc : isPySpace c
    · have hl : lstripPy (c :: t) = lstripPy t := by
        simp only [lstripPy, List.dropWhile_cons, hc, if_true]
      rw [hl, rstripHT_cons]
      by_cases hr : (rstripHT t = [] && isHTab c) = true
      · rw [if_pos hr]
        simp only [Bool.and_eq_true, decide_eq_true_eq] at hr
        have ht : lstripPy t = [] := (lstripPy_eq_nil_iff t).mpr
          (fun x hx => isHTab_isPySpace x ((rstripHT_eq_nil_iff t).mp hr.1 x hx))
        rw [ht]
        rfl
      · rw [if_neg hr]
        have h2 : lstripPy (c :: rstripHT t) = lstripPy (rstripHT t) := by
          simp only [lstripPy, List.dropWhile_cons, hc, if_true]
        rw [h2, ih]
    · have hht : isHTab c = false := by
        by_cases hb : isHTab c = true
        · exact absurd (isHTab_isPySpace c hb) hc
        · simpa using hb
      have h1 : rstripHT (c :: t) = c :: rstripHT t := by
        rw [rstripHT_cons, hht]
        simp
      have h2 : lstripPy (c :: t) = c :: t := by
        simp [lstripPy, List.dropWhile_cons, hc]
      have h3 : lstripPy (c :: rstripHT t) = c :: rstripHT t := by
        simp [lstripPy, List.dropWhile_cons, hc]
      rw [h2, h1, h3]

theorem rstripHT_eq_self_of_getLast (l : List Char)
    (h : ∀ c, l.getLast? = some c → isHTab c = false) : rstripHT l = l := by
  induction l with
  | nil => rfl
  | cons c t ih =>
    cases t with
    | nil =>
      have hc := h c (by simp)
      rw [rstripHT_cons, hc]
      simp [rstripHT]
    | cons d t' =>
      have ht : rstripHT (d :: t') = d :: t' :=
        ih (fun x hx => h x (by rw [List.getLast?_cons_cons]; exact hx))
      rw [rstripHT_cons, ht]
      simp

theorem rstripHT_getLast_not_HT (l : List Char) (c : Char)
    (h : (rstripHT l).getLast? = some c) : isHTab c = false := by
  induction l with
  | nil => simp [rstripHT] at h
  | cons d t ih =>
    rw [rstripHT_cons] at h
    by_cases hcond : (rstripHT t = [] && isHTab d) = true
    · rw [if_pos hcond] at h
      simp at h
    · rw [if_neg hcond] at h
      cases hr : rstripHT t with
      | nil =>
        rw [hr] at h
        have hcd : d = c := by simpa using h
        subst hcd
        simp only [Bool.and_eq_true, decide_eq_true_eq, not_and] at hcond
        have := hcond hr
        simpa using this
      | cons e r =>
        rw [hr, List.getLast?_cons_cons, ← hr] at h
        exact ih h

theorem rstripHT_shebang (x : List Char) :
    rstripHT ('#' :: '!' :: x) = '#' :: '!' :: rstripHT x := by
  rw [rstripHT_cons, rstripHT_cons]
  rw [show isHTab '!' = false from by decide, show isHTab '#' = false from by decide]
  simp

theorem has_shebang_rstrip (l0 ch0 : List Char)
    (hsh : has_shebang l0 = true) (hform : l0 = ch0 ++ ['\n'] ∨ l0 = ch0) :
    has_shebang (rstripHT ch0 ++ ['\n']) = true := by
  obtain ⟨y, hy⟩ : ∃ y, l0 = '#' :: '!' :: y := by
    cases l0 with
    | nil => simp [has_shebang, List.isPrefixOf] at hsh
    | cons a l1 =>
      cases l1 with
      | nil => simp [has_shebang, List.isPrefixOf] at hsh
      | cons b l2 =>
        simp only [has_shebang, List.isPrefixOf, Bool.and_eq_true, beq_iff_eq] at hsh
        exact ⟨l2, by rw [hsh.1, hsh.2.1]⟩
  obtain ⟨x, hx⟩ : ∃ x, ch0 = '#' :: '!' :: x := by
    rcases hform with hf | hf
    · rw [hf] at hy
      cases ch0 with
      | nil => simp at hy
      | cons a c1 =>
        cases c1 with
        | nil =>
          simp at hy
        | cons b c2 =>
          injection hy with h1 hy2
          injection hy2 with h2 _
          exact ⟨c2, by rw [h1, h2]⟩
    · exact ⟨y, by rw [← hf]; exact hy⟩
  rw [hx, rstripHT_shebang]
  simp [has_shebang, List.isPrefixOf]

theorem shellKeepLine_nl (K : List (List Char)) : shellKeepLine K ['\n'] = true := by
  unfold shellKeepLine
  rw [show lstripPy ['\n'] = [] from by decide]
  rfl

theorem isInfix_rstripHT (S B : List Char) (hS : S <:+: B)
    (hlast : ∀ d, S.getLast? = some d → isHTab d = false) :
    S <:+: rstripHT B := by
  rcases hS with ⟨u, v, huv⟩
  by_cases hv : rstripHT v = []
  · by_cases hS0 : S = []
    · subst hS0
      exact List.nil_infix
    · have hSfix : rstripHT S = S := rstripHT_eq_self_of_getLast S hlast
      have hB : rstripHT B = u ++ S := by
        rw [← huv, show u ++ S ++ v = (u ++ S) ++ v from by simp,
          rstripHT_append_all_ht _ _ ((rstripHT_eq_nil_iff v).mp hv),
          rstripHT_append u S (by rw [hSfix]; exact hS0), hSfix]
      rw [hB]
      exact ⟨u, [], by simp⟩
  · have hB : rstripHT B = u ++ S ++ rstripHT v := by
      rw [← huv, show u ++ S ++ v = (u ++ S) ++ v from by simp,
        rstripHT_append _ _ hv]
    rw [hB]
    exact ⟨u, rstripHT v, rfl⟩

theorem lowerStr_infix_split (kw X : List Char) (h : kw <:+: lowerStr X) :
    ∃ S, S <:+: X ∧ lowerStr S = kw := by
  rcases h with ⟨u, v, huv⟩
  have h1 : X.map Char.toLower = u ++ (kw ++ v) := by
    rw [show X.map Char.toLower = lowerStr X from rfl, ← huv]
    simp
  rcases List.map_eq_append_iff.mp h1 with ⟨x1, x2, hX, hu, hrest⟩
  rcases List.map_eq_append_iff.mp hrest with ⟨s, t2, hx2, hs, ht⟩
  refine ⟨s, ?_, hs⟩
  rw [hX, hx2]
  exact ⟨x1, t2, by simp⟩

theorem isInfix_append_single_nl (S B : List Char) (h : S <:+: B ++ ['\n']) :
    S <:+: B ∨ ∃ w, S = w ++ ['\n'] := by
  rcases h with ⟨u, v, huv⟩
  rcases List.eq_nil_or_concat v with rfl | ⟨v', a, rfl⟩
  · rcases List.eq_nil_or_concat S with rfl | ⟨S', b, rfl⟩
    · exact Or.inl List.nil_infix
    · right
      rw [List.concat_eq_append] at huv
      rw [List.append_nil] at huv
      have hb : b = '\n' := by
        have h2 : (u ++ S') ++ [b] = B ++ ['\n'] := by rw [← huv]; simp
        have h3 := congrArg List.getLast? h2
        simpa [List.getLast?_concat] using h3
      exact ⟨S', by rw [List.concat_eq_append, hb]⟩
  · left
    rw [List.concat_eq_append] at huv
    have ha : a = '\n' := by
      have h2 : (u ++ S ++ v') ++ [a] = B ++ ['\n'] := by rw [← huv]; simp
      have h3 := congrArg List.getLast? h2
      simpa [List.getLast?_concat] using h3
    subst ha
    have h4 : (u ++ S ++ v') ++ ['\n'] = B ++ ['\n'] := by
      rw [show (u ++ S ++ v') ++ ['\n'] = u ++ S ++ (v' ++ ['\n']) from by simp]
      exact huv
    exact ⟨u, v', List.append_cancel_right h4⟩

theorem lowerStr_append_nl (x : List Char) :
    lowerStr (x ++ ['\n']) = lowerStr x ++ ['\n'] := by
  unfold lowerStr
  rw [List.map_append]
  rw [show List.map Char.toLower ['\n'] = ['\n'] from by decide]

theorem lowerStr_last_not_HT (kw S : List Char) (hmap : lowerStr S = kw)
    (hkwlast : ∀ d, kw.getLast? = some d → isHTab d = false) :
    ∀ d, S.getLast? = some d → isHTab d = false := by
  intro d hd
  by_cases hb : isHTab d = true
  · have hd2 : d = ' ' ∨ d = '\t' := by
      simpa [isHTab] using hb
    have hlow : Char.toLower d = d := by
      rcases hd2 with rfl | rfl <;> decide
    have hklast : kw.getLast? = some d := by
      rw [← hmap]
      show (S.map Char.toLower).getLast? = some d
      rw [List.getLast?_map, hd]
      simp [hlow]
    have hfalse := hkwlast d hklast
    rw [hb] at hfalse
    exact absurd hfalse (by decide)
  · simpa using hb

/-! ### Transport of the per-line keep decision across trailing-whitespace
stripping: a kept line stays kept after its trailing spaces/tabs are removed
and a final newline is (re)attached, provided no keyword contains a newline
or ends in a space or tab. -/

theorem shellKeepLine_transport (K : List (List Char))
    (hK : ∀ kw ∈ K, '\n' ∉ kw ∧ rstripHT kw = kw)
    (ch m₀ : List Char) (hch : '\n' ∉ ch)
    (hm : m₀ = ch ++ ['\n'] ∨ m₀ = ch)
    (hkeep : shellKeepLine K m₀ = true) :
    shellKeepLine K (rstripHT ch ++ ['\n']) = true := by
  by_cases hw : lstripPy ch = []
  · have h1 : lstripPy (rstripHT ch) = [] := by
      rw [lstripPy_rstripHT_comm, hw]
      rfl
    have h2 : lstripPy (rstripHT ch ++ ['\n']) = [] := by
      rw [lstripPy_append_nil _ _ h1]
      decide
    unfold shellKeepLine
    rw [h2]
    rfl
  · obtain ⟨c, wt, hwct⟩ : ∃ c wt, lstripPy ch = c :: wt := by
      cases hlc : lstripPy ch with
      | nil => exact absurd hlc hw
      | cons c wt => exact ⟨c, wt, rfl⟩
    have hcps : isPySpace c = false := head_lstripPy_not_space ch c wt hwct
    have hcht : isHTab c = false := by
      by_cases hb : isHTab c = true
      · rw [isHTab_isPySpace c hb] at hcps
        exact absurd hcps (by decide)
      · simpa using hb
    have hrw_ne : rstripHT (lstripPy ch) ≠ [] := by
      rw [hwct]
      intro hnil
      have hhd := (rstripHT_eq_nil_iff _).mp hnil c (by simp)
      rw [hhd] at hcht
      exact absurd hcht (by decide)
    have hrw_cons : rstripHT (lstripPy ch) = c :: rstripHT wt := by
      rw [hwct, rstripHT_cons, hcht]
      simp
    have htgt : lstripPy (rstripHT ch ++ ['\n']) = c :: (rstripHT wt ++ ['\n']) := by
      rw [lstripPy_append _ _ (by rw [lstripPy_rstripHT_comm]; exact hrw_ne),
        lstripPy_rstripHT_comm, hrw_cons]
      rfl
    have hlm : lstripPy m₀ = c :: wt ∨ lstripPy m₀ = c :: (wt ++ ['\n']) := by
      rcases hm with rfl | rfl
      · right
        rw [lstripPy_append ch ['\n'] hw, hwct]
        rfl
      · left
        exact hwct
    by_cases hsh : c = '#'
    · subst hsh
      obtain ⟨X, hX, hXcase⟩ : ∃ X, lstripPy m₀ = '#' :: X ∧ (X = wt ∨ X = wt ++ ['\n']) := by
        rcases hlm with h | h
        · exact ⟨wt, h, Or.inl rfl⟩
        · exact ⟨wt ++ ['\n'], h, Or.inr rfl⟩
      have hkw : ∃ kw ∈ K, kw <:+: lowerStr (lstripPy X) := by
        unfold shellKeepLine should_keep_sh_comment at hkeep
        rw [lstripPy_idem, hX] at hkeep
        have hpre : (['#'].isPrefixOf ('#' :: X)) = true := by
          simp [List.isPrefixOf]
        rw [hpre] at hkeep
        simp only [Bool.not_true, Bool.false_or, List.any_eq_true,
          List.drop_succ_cons, List.drop_zero] at hkeep
        obtain ⟨kw, hkwK, hsub⟩ := hkeep
        exact ⟨kw, hkwK, (hasSub_iff_isInfix _ _).mp hsub⟩
      unfold shellKeepLine should_keep_sh_comment
      rw [lstripPy_idem, htgt]
      have hpre2 : (['#'].isPrefixOf ('#' :: (rstripHT wt ++ ['\n']))) = true := by
        simp [List.isPrefixOf]
      rw [hpre2]
      simp only [Bool.not_true, Bool.false_or, List.any_eq_true,
        List.drop_succ_cons, List.drop_zero]
      obtain ⟨kw, hkwK, hinf⟩ := hkw
      obtain ⟨hknl, hkfix⟩ := hK kw hkwK
      refine ⟨kw, hkwK, (hasSub_iff_isInfix _ _).mpr ?_⟩
      have hkwlast : ∀ d, kw.getLast? = some d → isHTab d = false :=
        fun d hd => rstripHT_getLast_not_HT kw d (by rw [hkfix]; exact hd)
      by_cases hB : lstripPy wt = []
      · have hx0 : lstripPy X = [] := by
          rcases hXcase with rfl | rfl
          · exact hB
          · rw [lstripPy_append_nil _ _ hB]
            decide
        rw [hx0] at hinf
        rw [show lowerStr ([] : List Char) = [] from rfl] at hinf
        rw [List.infix_nil.mp hinf]
        exact List.nil_infix
      · have hBr_ne : rstripHT (lstripPy wt) ≠ [] := by
          obtain ⟨e, B1, hB1⟩ : ∃ e B1, lstripPy wt = e :: B1 := by
            cases hbb : lstripPy wt with
            | nil => exact absurd hbb hB
            | cons e B1 => exact ⟨e, B1, rfl⟩
          rw [hB1]
          intro hnil
          have he := (rstripHT_eq_nil_iff _).mp hnil e (by simp)
          have hps := head_lstripPy_not_space wt e B1 hB1
          rw [isHTab_isPySpace e he] at hps
          exact absurd hps (by decide)
        have htext : lstripPy (rstripHT wt ++ ['\n'])
            = rstripHT (lstripPy wt) ++ ['\n'] := by
          rw [lstripPy_append _ _ (by rw [lstripPy_rstripHT_comm]; exact hBr_ne),
            lstripPy_rstripHT_comm]
        rw [htext, lowerStr_append_nl]
        have hinfB : kw <:+: lowerStr (lstripPy wt) := by
          rcases hXcase with rfl | rfl
          · exact hinf
          · rw [lstripPy_append _ _ hB, lowerStr_append_nl] at hinf
            rcases isInfix_append_single_nl kw (lowerStr (lstripPy wt)) hinf with h' | ⟨w', hw'⟩
            · exact h'
            · exfalso
              apply hknl
              rw [hw']
              simp
        obtain ⟨S, hSB, hSkw⟩ := lowerStr_infix_split kw (lstripPy wt) hinfB
        have hSlast := lowerStr_last_not_HT kw S hSkw hkwlast
        have hS' : S <:+: rstripHT (lstripPy wt) := isInfix_rstripHT S _ hSB hSlast
        have hmapinf : kw <:+: lowerStr (rstripHT (lstripPy wt)) := by
          rw [← hSkw]
          exact List.IsInfix.map Char.toLower hS'
        rcases hmapinf with ⟨u, v, huv⟩
        exact ⟨u, v ++ ['\n'], by rw [← huv]; simp⟩
    · unfold shellKeepLine
      rw [htgt]
      have hp : (['#'].isPrefixOf (c :: (rstripHT wt ++ ['\n']))) = false := by
        simp only [List.isPrefixOf, Bool.and_true, beq_eq_false_iff_ne]
        intro h
        exact hsh h.symm
      rw [hp]
      rfl

/-! ### Line structure of texts produced by `cleanup_empty_lines` -/

theorem splitKE_cons_nl (t : List Char) : splitKE ('\n' :: t) = ['\n'] :: splitKE t := by
  rw [show splitKE ('\n' :: t)
      = if '\n' = '\n' then ['\n'] :: splitKE t else consHead '\n' (splitKE t) from rfl,
    if_pos rfl]

theorem splitKE_cons_other (c : Char) (t : List Char) (h : c ≠ '\n') :
    splitKE (c :: t) = consHead c (splitKE t) := by
  rw [show splitKE (c :: t)
      = if c = '\n' then ['\n'] :: splitKE t else consHead c (splitKE t) from rfl,
    if_neg h]

theorem splitKE_append_nl (a t : List Char) (h : '\n' ∉ a) :
    splitKE (a ++ '\n' :: t) = (a ++ ['\n']) :: splitKE t := by
  induction a with
  | nil => simpa using splitKE_cons_nl t
  | cons c a' ih =>
    have hc : c ≠ '\n' := fun hc => h (by simp [hc])
    have h' : '\n' ∉ a' := fun hm => h (by simp [hm])
    rw [List.cons_append, splitKE_cons_other c _ hc, ih h']
    rfl

theorem splitKE_joinNL_chunks (C : List (List Char)) (h : ∀ x ∈ C, '\n' ∉ x) :
    splitKE (joinNL (C ++ [[]])) = C.map (fun ch => ch ++ ['\n']) := by
  induction C with
  | nil => rfl
  | cons a C' ih =>
    rw [List.cons_append, joinNL_cons _ _ (by simp),
      splitKE_append_nl _ _ (h a (by simp)), ih (fun x hx => h x (by simp [hx]))]
    rfl

theorem joinNL_getLast_nl (D : List (List Char)) (hnl : ∀ x ∈ D, '\n' ∉ x)
    (h : (joinNL D).getLast? = some '\n') : D.getLast? = some [] := by
  induction D with
  | nil => simp [joinNL] at h
  | cons a R ih =>
    cases R with
    | nil =>
      exfalso
      have hmem : '\n' ∈ a := List.mem_of_getLast?_eq_some h
      exact hnl a (by simp) hmem
    | cons b R' =>
      rw [joinNL_cons _ _ (by simp), List.getLast?_append] at h
      cases hJ : joinNL (b :: R') with
      | nil =>
        cases R' with
        | nil =>
          have hb : b = [] := hJ
          rw [List.getLast?_cons_cons, hb]
          simp
        | cons c R'' =>
          exfalso
          rw [joinNL_cons _ _ (by simp)] at hJ
          exact absurd hJ (by simp)
      | cons j J' =>
        rw [hJ, List.getLast?_cons_cons] at h
        have hj : (j :: J').getLast? = some '\n' := by
          cases hg : (j :: J').getLast? with
          | none =>
            rw [hg] at h
            simp only [Option.none_or] at h
            exfalso
            exact hnl a (by simp) (List.mem_of_getLast?_eq_some h)
          | some x =>
            rw [hg] at h
            simp only [Option.or_some] at h
            exact h
        rw [List.getLast?_cons_cons]
        exact ih (fun x hx => hnl x (by simp [hx])) (by rw [hJ]; exact hj)

theorem collapseChunks_cons_zero (a : List Char) (R : List (List Char)) :
    ∃ R', collapseChunks 0 (a :: R) = a :: R' ∧ ∀ x ∈ R', x ∈ R := by
  cases R with
  | nil =>
    refine ⟨[], ?_, by simp⟩
    rw [collapseChunks_single]
  | cons b R2 =>
    cases a with
    | nil =>
      refine ⟨collapseChunks 1 (b :: R2), ?_, ?_⟩
      · rw [collapseChunks_nil_cons, if_neg (by omega)]
      · exact fun x hx => mem_collapseChunks 1 _ x hx
    | cons y ys =>
      refine ⟨collapseChunks 1 (b :: R2), ?_, ?_⟩
      · rw [collapseChunks_cons_cons]
      · exact fun x hx => mem_collapseChunks 1 _ x hx

theorem splitKE_shape (s : List Char) :
    ∀ m ∈ splitKE s, ∃ ch, '\n' ∉ ch ∧ (m = ch ++ ['\n'] ∨ m = ch) := by
  induction s with
  | nil => simp [splitKE]
  | cons c t ih =>
    intro m hm
    by_cases hc : c = '\n'
    · subst hc
      rw [splitKE_cons_nl] at hm
      rcases List.mem_cons.mp hm with rfl | hm
      · exact ⟨[], by simp, Or.inl rfl⟩
      · exact ih m hm
    · rw [splitKE_cons_other c t hc] at hm
      rcases mem_consHead c (splitKE t) m hm with hm1 | hm1
      · cases hst : splitKE t with
        | nil =>
          rw [hst] at hm1
          refine ⟨[c], ?_, Or.inr ?_⟩
          · intro hmem
            have h1 : '\n' = c := by simpa using hmem
            exact hc h1.symm
          · rw [hm1]
            rfl
        | cons a rest =>
          have ha : a ∈ splitKE t := by rw [hst]; simp
          obtain ⟨ch, hnl, hform⟩ := ih a ha
          rw [hst] at hm1
          have hm2 : m = c :: a := by simpa [List.headI] using hm1
          rcases hform with hf | hf
          · refine ⟨c :: ch, ?_, Or.inl ?_⟩
            · intro hmem
              rcases List.mem_cons.mp hmem with h1 | h1
              · exact hc h1.symm
              · exact hnl h1
            · rw [hm2, hf]
              rfl
          · refine ⟨c :: ch, ?_, Or.inr ?_⟩
            · intro hmem
              rcases List.mem_cons.mp hmem with h1 | h1
              · exact hc h1.symm
              · exact hnl h1
            · rw [hm2, hf]
      · cases hst : splitKE t with
        | nil =>
          rw [hst] at hm1
          simp at hm1
        | cons a rest =>
          rw [hst] at hm1
          exact ih m (by rw [hst]; exact List.mem_cons_of_mem a hm1)

theorem splitKE_dropLast_nl (s : List Char) :
    ∀ m ∈ (splitKE s).dropLast, ∃ ch, '\n' ∉ ch ∧ m = ch ++ ['\n'] := by
  induction s with
  | nil => simp [splitKE]
  | cons c t ih =>
    intro m hm
    by_cases hc : c = '\n'
    · subst hc
      rw [splitKE_cons_nl] at hm
      cases hst : splitKE t with
      | nil =>
        rw [hst] at hm
        simp at hm
      | cons a rest =>
        rw [hst, List.dropLast_cons₂] at hm
        rcases List.mem_cons.mp hm with rfl | hm
        · exact ⟨[], by simp, rfl⟩
        · exact ih m (by rw [hst]; exact hm)
    · rw [splitKE_cons_other c t hc] at hm
      cases hst : splitKE t with
      | nil =>
        rw [hst] at hm
        simp [consHead] at hm
      | cons a rest =>
        rw [hst, show consHead c (a :: rest) = (c :: a) :: rest from rfl] at hm
        cases rest with
        | nil => simp at hm
        | cons b rest2 =>
          rw [List.dropLast_cons₂] at hm
          rcases List.mem_cons.mp hm with rfl | hm
          · obtain ⟨ch, hnl, hfa⟩ : ∃ ch, '\n' ∉ ch ∧ a = ch ++ ['\n'] := by
              apply ih
              rw [hst, List.dropLast_cons₂]
              simp
            refine ⟨c :: ch, ?_, ?_⟩
            · intro hmem
              rcases List.mem_cons.mp hmem with h1 | h1
              · exact hc h1.symm
              · exact hnl h1
            · rw [hfa]
              rfl
          · apply ih
            rw [hst, List.dropLast_cons₂]
            exact List.mem_cons_of_mem a hm

theorem flat_chunks (L₀ : List (List Char)) (lst : List Char)
    (hL₀ : ∀ m ∈ L₀, ∃ ch, '\n' ∉ ch ∧ m = ch ++ ['\n'])
    (hlst : ∃ ch, '\n' ∉ ch ∧ (lst = ch ++ ['\n'] ∨ lst = ch)) :
    ∀ x ∈ splitNL (L₀ ++ [lst]).flatten,
      x = [] ∨ ∃ m ∈ L₀ ++ [lst],
        ∃ ch, '\n' ∉ ch ∧ (m = ch ++ ['\n'] ∨ m = ch) ∧ x = ch := by
  induction L₀ with
  | nil =>
    obtain ⟨ch, hnl, hform⟩ := hlst
    intro x hx
    rw [List.nil_append, List.flatten_cons, List.flatten_nil, List.append_nil] at hx
    rcases hform with hf | hf
    · rw [hf, splitNL_append_nl _ _ hnl] at hx
      rcases List.mem_cons.mp hx with hxe | hx
      · exact Or.inr ⟨lst, by simp, ch, hnl, Or.inl hf, hxe⟩
      · left
        simpa [splitNL] using hx
    · rw [hf, splitNL_no_nl_eq _ hnl] at hx
      have hxe := List.mem_singleton.mp hx
      exact Or.inr ⟨lst, by simp, ch, hnl, Or.inr hf, hxe⟩
  | cons m L₀' ih =>
    intro x hx
    obtain ⟨ch, hnl, hform⟩ := hL₀ m (by simp)
    rw [List.cons_append, List.flatten_cons, hform, List.append_assoc,
      List.singleton_append, splitNL_append_nl _ _ hnl] at hx
    rcases List.mem_cons.mp hx with hxe | hx
    · exact Or.inr ⟨m, by simp, ch, hnl, Or.inl hform, hxe⟩
    · rcases ih (fun m' hm' => hL₀ m' (by simp [hm'])) x hx with h | ⟨m', hm', hrest⟩
      · exact Or.inl h
      · refine Or.inr ⟨m', ?_, hrest⟩
        rcases List.mem_append.mp hm' with h | h
        · exact List.mem_cons_of_mem _ (List.mem_append_left _ h)
        · exact List.mem_cons_of_mem _ (List.mem_append_right _ h)

theorem cleanup_lines (T ch0 : List Char) (Crest : List (List Char))
    (hT : splitNL T = ch0 :: Crest) :
    cleanup_empty_lines T = [] ∨
    ∃ R' : List (List Char), (∀ x ∈ R', x = [] ∨ x ∈ Crest.map rstripHT) ∧
      splitKE (cleanup_empty_lines T)
        = (rstripHT ch0 ++ ['\n']) :: R'.map (fun ch => ch ++ ['\n']) := by
  have hnlC : ∀ l ∈ (splitNL T).map rstripHT, '\n' ∉ l := by
    intro l hl
    rcases List.mem_map.mp hl with ⟨x, hx, hlx⟩
    rw [← hlx]
    exact rstripHT_no_nl x (mem_splitNL_no_nl T x hx)
  have hmapT : (splitNL T).map rstripHT = rstripHT ch0 :: Crest.map rstripHT := by
    rw [hT]
    rfl
  obtain ⟨R0, hD, hR0⟩ := collapseChunks_cons_zero (rstripHT ch0) (Crest.map rstripHT)
  have hy : collapseNL (stripTrailingWS T)
      = joinNL (collapseChunks 0 ((splitNL T).map rstripHT)) :=
    collapseGo_joinNL 0 _ hnlC
  rw [hmapT, hD] at hy
  have hDnl : ∀ x ∈ rstripHT ch0 :: R0, '\n' ∉ x := by
    intro x hx
    rcases List.mem_cons.mp hx with rfl | hx
    · exact hnlC _ (by rw [hmapT]; simp)
    · exact hnlC x (by rw [hmapT]; exact List.mem_cons_of_mem _ (hR0 x hx))
  by_cases hlastD : (rstripHT ch0 :: R0).getLast? = some []
  · obtain ⟨C, hC⟩ := List.getLast?_eq_some_iff.mp hlastD
    cases C with
    | nil =>
      left
      have h1 : rstripHT ch0 :: R0 = [[]] := by simpa using hC
      show ensureNL (collapseNL (stripTrailingWS T)) = []
      rw [hy, h1]
      decide
    | cons c0 C' =>
      right
      have hC' : rstripHT ch0 :: R0 = c0 :: (C' ++ [[]]) := by simpa using hC
      injection hC' with h1 h2
      have hjoin : joinNL ((rstripHT ch0 :: C') ++ [[]])
          = joinNL (rstripHT ch0 :: C') ++ ['\n'] := joinNL_append_nil_chunk _ (by simp)
      have hout : cleanup_empty_lines T = joinNL ((rstripHT ch0 :: C') ++ [[]]) := by
        show ensureNL (collapseNL (stripTrailingWS T)) = _
        rw [hy, h2, show rstripHT ch0 :: (C' ++ [[]]) = (rstripHT ch0 :: C') ++ [[]] from rfl,
          hjoin]
        exact ensureNL_last_nl _ (by rw [List.getLast?_concat])
      refine ⟨C', ?_, ?_⟩
      · intro x hx
        right
        exact hR0 x (by rw [h2]; exact List.mem_append_left _ hx)
      · rw [hout, splitKE_joinNL_chunks _ (by
          intro x hx
          apply hDnl
          rcases List.mem_cons.mp hx with rfl | hx2
          · simp
          · exact List.mem_cons_of_mem _ (by rw [h2]; exact List.mem_append_left _ hx2))]
        rfl
  · right
    have hne : joinNL (rstripHT ch0 :: R0) ≠ [] := by
      cases hR : R0 with
      | nil =>
        intro hnil
        have h1 : rstripHT ch0 = [] := hnil
        apply hlastD
        rw [hR, h1]
        rfl
      | cons b R1 =>
        rw [joinNL_cons _ _ (by simp)]
        intro hnil
        rcases List.append_eq_nil.mp hnil with ⟨_, h2⟩
        exact absurd h2 (by simp)
    have hlast2 : (joinNL (rstripHT ch0 :: R0)).getLast? ≠ some '\n' := by
      intro hcontra
      exact hlastD (joinNL_getLast_nl _ hDnl hcontra)
    have hout : cleanup_empty_lines T = joinNL ((rstripHT ch0 :: R0) ++ [[]]) := by
      show ensureNL (collapseNL (stripTrailingWS T)) = _
      rw [hy, joinNL_append_nil_chunk _ (by simp)]
      unfold ensureNL
      rw [if_neg hne, if_neg hlast2]
    refine ⟨R0, ?_, ?_⟩
    · intro x hx
      right
      exact hR0 x hx
    · rw [hout, splitKE_joinNL_chunks _ hDnl]
      rfl

theorem kept_chunks (K : List (List Char)) (L₀ : List (List Char)) (lst : List Char)
    (hL₀ : ∀ m ∈ L₀, shellKeepLine K m = true ∧ ∃ ch, '\n' ∉ ch ∧ m = ch ++ ['\n'])
    (hlast : shellKeepLine K lst = true)
    (hlsh : ∃ ch, '\n' ∉ ch ∧ (lst = ch ++ ['\n'] ∨ lst = ch)) :
    ∀ x ∈ splitNL (L₀ ++ [lst]).flatten,
      x = [] ∨ ∃ m ch, shellKeepLine K m = true ∧ '\n' ∉ ch
        ∧ (m = ch ++ ['\n'] ∨ m = ch) ∧ x = ch := by
  intro x hx
  rcases flat_chunks L₀ lst (fun m hm => (hL₀ m hm).2) hlsh x hx
    with h | ⟨m, hm, ch, hnl, hform, hxch⟩
  · exact Or.inl h
  · right
    refine ⟨m, ch, ?_, hnl, hform, hxch⟩
    rcases List.mem_append.mp hm with h | h
    · exact (hL₀ m h).1
    · rcases List.mem_singleton.mp h with rfl
      exact hlast

theorem strip_shell_fixed_of_lines (K : List (List Char)) (out : List Char)
    (m0 : List Char) (rest' : List (List Char))
    (hfix : cleanup_empty_lines out = out)
    (hlines : splitKE out = m0 :: rest')
    (hhead : has_shebang m0 = true ∨ shellKeepLine K m0 = true)
    (hrest : ∀ m ∈ rest', shellKeepLine K m = true) :
    strip_shell_comments out K = out := by
  have hfl : (m0 :: rest').flatten = out := by
    rw [← hlines]
    exact splitKE_flatten out
  unfold strip_shell_comments
  rw [hlines]
  dsimp only
  by_cases hsb : has_shebang m0
  · rw [if_pos hsb, shellBody_eq_filter, List.filter_eq_self.mpr hrest, hfl, hfix]
  · rcases hhead with h | h
    · exact absurd h hsb
    · have hfilter : List.filter (shellKeepLine K) (m0 :: rest') = m0 :: rest' :=
        List.filter_eq_self.mpr (by
          intro a ha
          rcases List.mem_cons.mp ha with rfl | ha
          · exact h
          · exact hrest a ha)
      rw [if_neg hsb, shellBody_eq_filter, hfilter, hfl, hfix]

theorem shell_idem_core (K : List (List Char))
    (hK : ∀ kw ∈ K, '\n' ∉ kw ∧ rstripHT kw = kw)
    (T ch0 : List Char) (Crest : List (List Char))
    (hT : splitNL T = ch0 :: Crest)
    (hhead : has_shebang (rstripHT ch0 ++ ['\n']) = true
      ∨ shellKeepLine K (rstripHT ch0 ++ ['\n']) = true)
    (hrest : ∀ x ∈ Crest, x = [] ∨ ∃ m ch, shellKeepLine K m = true ∧ '\n' ∉ ch
      ∧ (m = ch ++ ['\n'] ∨ m = ch) ∧ x = ch) :
    strip_shell_comments (cleanup_empty_lines T) K = cleanup_empty_lines T := by
  have hfix : cleanup_empty_lines (cleanup_empty_lines T) = cleanup_empty_lines T := by
    show ensureNL (collapseNL (stripTrailingWS (cleanup_empty_lines T)))
        = cleanup_empty_lines T
    rw [cleanup_stripT_fixed, cleanup_collapse_fixed, cleanup_ensure_fixed]
  rcases cleanup_lines T ch0 Crest hT with hnil | ⟨R', hR', hlines⟩
  · rw [hnil]
    rfl
  · apply strip_shell_fixed_of_lines K _ _ _ hfix hlines hhead
    intro m hm
    rcases List.mem_map.mp hm with ⟨x, hx, hxm⟩
    rcases hR' x hx with hx0 | hx2
    · rw [← hxm, hx0, List.nil_append]
      exact shellKeepLine_nl K
    · rcases List.mem_map.mp hx2 with ⟨ch', hch', hch'x⟩
      rcases hrest ch' hch' with hc0 | ⟨m₀, ch, hkeep, hchnl, hform, hcheq⟩
      · rw [← hxm, ← hch'x, hc0]
        rw [show rstripHT ([] : List Char) = [] from rfl, List.nil_append]
        exact shellKeepLine_nl K
      · rw [← hxm, ← hch'x, hcheq]
        exact shellKeepLine_transport K hK ch m₀ hchnl hform hkeep

theorem shell_idem_l0_only (K : List (List Char))
    (hK : ∀ kw ∈ K, '\n' ∉ kw ∧ rstripHT kw = kw)
    (l0 ch0 : List Char) (hnl0 : '\n' ∉ ch0)
    (hform : l0 = ch0 ++ ['\n'] ∨ l0 = ch0)
    (hhead : has_shebang (rstripHT ch0 ++ ['\n']) = true
      ∨ shellKeepLine K (rstripHT ch0 ++ ['\n']) = true) :
    strip_shell_comments (cleanup_empty_lines l0) K = cleanup_empty_lines l0 := by
  rcases hform with hf | hf
  · have hT : splitNL l0 = ch0 :: [[]] := by
      rw [hf, show ch0 ++ ['\n'] = ch0 ++ '\n' :: [] from rfl, splitNL_append_nl _ _ hnl0]
      rfl
    refine shell_idem_core K hK l0 ch0 [[]] hT hhead ?_
    intro x hx
    left
    simpa using hx
  · have hT : splitNL l0 = ch0 :: [] := by
      rw [hf]
      exact splitNL_no_nl_eq ch0 hnl0
    refine shell_idem_core K hK l0 ch0 [] hT hhead ?_
    intro x hx
    simp at hx

theorem shell_idem_kept (K : List (List Char))
    (hK : ∀ kw ∈ K, '\n' ∉ kw ∧ rstripHT kw = kw)
    (L₀ : List (List Char)) (lst : List Char)
    (hL₀ : ∀ m ∈ L₀, shellKeepLine K m = true ∧ ∃ ch, '\n' ∉ ch ∧ m = ch ++ ['\n'])
    (hlast : shellKeepLine K lst = true)
    (hlsh : ∃ ch, '\n' ∉ ch ∧ (lst = ch ++ ['\n'] ∨ lst = ch)) :
    strip_shell_comments (cleanup_empty_lines (L₀ ++ [lst]).flatten) K
      = cleanup_empty_lines (L₀ ++ [lst]).flatten := by
  have hall := kept_chunks K L₀ lst hL₀ hlast hlsh
  cases hTeq : splitNL (L₀ ++ [lst]).flatten with
  | nil => exact absurd hTeq (splitNL_ne_nil _)
  | cons c₀ Cr =>
    rw [hTeq] at hall
    have hhead : has_shebang (rstripHT c₀ ++ ['\n']) = true
        ∨ shellKeepLine K (rstripHT c₀ ++ ['\n']) = true := by
      right
      rcases hall c₀ (by simp) with hc0 | ⟨m, ch, hkeep, hnl, hform, hcheq⟩
      · rw [hc0, show rstripHT ([] : List Char) = [] from rfl, List.nil_append]
        exact shellKeepLine_nl K
      · rw [hcheq]
        exact shellKeepLine_transport K hK ch m hnl hform hkeep
    exact shell_idem_core K hK _ c₀ Cr hTeq hhead
      (fun x hx => hall x (List.mem_cons_of_mem _ hx))

theorem shell_idem_sheb (K : List (List Char))
    (hK : ∀ kw ∈ K, '\n' ∉ kw ∧ rstripHT kw = kw)
    (l0 ch0 : List Char) (hsh : has_shebang l0 = true)
    (hl0 : l0 = ch0 ++ ['\n']) (hnl0 : '\n' ∉ ch0)
    (L₀ : List (List Char)) (lst : List Char)
    (hL₀ : ∀ m ∈ L₀, shellKeepLine K m = true ∧ ∃ ch, '\n' ∉ ch ∧ m = ch ++ ['\n'])
    (hlast : shellKeepLine K lst = true)
    (hlsh : ∃ ch, '\n' ∉ ch ∧ (lst = ch ++ ['\n'] ∨ lst = ch)) :
    strip_shell_comments (cleanup_empty_lines (l0 :: (L₀ ++ [lst])).flatten) K
      = cleanup_empty_lines (l0 :: (L₀ ++ [lst])).flatten := by
  have hT : splitNL (l0 :: (L₀ ++ [lst])).flatten
      = ch0 :: splitNL ((L₀ ++ [lst]).flatten) := by
    rw [List.flatten_cons, hl0, List.append_assoc, List.singleton_append,
      splitNL_append_nl _ _ hnl0]
  exact shell_idem_core K hK _ ch0 _ hT
    (Or.inl (has_shebang_rstrip l0 ch0 hsh (Or.inl hl0)))
    (kept_chunks K L₀ lst hL₀ hlast hlsh)

/-- C4 (amended, shell part): `strip_shell_comments` is idempotent for every
keyword set whose keywords contain no newline and do not end in a space or a
tab — in particular for every set of comma-separated command-line keywords
such as the default `{"shellcheck"}`.  (Unrestricted per-format idempotence
is refuted by `strip_css_comments_not_idem` below.) -/
theorem strip_shell_comments_idem (s : List Char) (K : List (List Char))
    (hK : ∀ kw ∈ K, '\n' ∉ kw ∧ rstripHT kw = kw) :
    strip_shell_comments (strip_shell_comments s K) K = strip_shell_comments s K := by
  cases hs : splitKE s with
  | nil =>
    have h0 : strip_shell_comments s K = [] := by
      unfold strip_shell_comments
      rw [hs]
    rw [h0]
    rfl
  | cons l0 rest =>
    have hl0shape : ∃ ch, '\n' ∉ ch ∧ (l0 = ch ++ ['\n'] ∨ l0 = ch) :=
      splitKE_shape s l0 (by rw [hs]; simp)
    by_cases hsh : has_shebang l0
    · have hout : strip_shell_comments s K
          = cleanup_empty_lines (l0 :: List.filter (shellKeepLine K) rest).flatten := by
        unfold strip_shell_comments
        rw [hs]
        dsimp only
        rw [if_pos hsh, shellBody_eq_filter]
      rw [hout]
      rcases List.eq_nil_or_concat rest with rfl | ⟨r₀, rl, hre⟩
      · obtain ⟨ch0, hnl0, hform⟩ := hl0shape
        rw [show (l0 :: List.filter (shellKeepLine K) []).flatten = l0 from by simp]
        exact shell_idem_l0_only K hK l0 ch0 hnl0 hform
          (Or.inl (has_shebang_rstrip l0 ch0 hsh hform))
      · subst hre
        rw [List.concat_eq_append]
        have hdl' : ∀ m ∈ l0 :: r₀, ∃ ch, '\n' ∉ ch ∧ m = ch ++ ['\n'] := by
          intro m hm
          apply splitKE_dropLast_nl s
          rw [hs, List.concat_eq_append,
            show l0 :: (r₀ ++ [rl]) = (l0 :: r₀) ++ [rl] from rfl, List.dropLast_concat]
          exact hm
        obtain ⟨ch0, hnl0, hl0⟩ := hdl' l0 (by simp)
        have hrlsh : ∃ ch, '\n' ∉ ch ∧ (rl = ch ++ ['\n'] ∨ rl = ch) :=
          splitKE_shape s rl (by rw [hs, List.concat_eq_append]; simp)
        have hfL₀ : ∀ m ∈ List.filter (shellKeepLine K) r₀,
            shellKeepLine K m = true ∧ ∃ ch, '\n' ∉ ch ∧ m = ch ++ ['\n'] :=
          fun m hm => ⟨List.of_mem_filter hm,
            hdl' m (List.mem_cons_of_mem _ (List.mem_of_mem_filter hm))⟩
        by_cases hkl : shellKeepLine K rl = true
        · rw [show List.filter (shellKeepLine K) (r₀ ++ [rl])
              = List.filter (shellKeepLine K) r₀ ++ [rl] from by
            rw [List.filter_append]
            simp [List.filter_cons, hkl]]
          exact shell_idem_sheb K hK l0 ch0 hsh hl0 hnl0 _ rl hfL₀ hkl hrlsh
        · rw [show List.filter (shellKeepLine K) (r₀ ++ [rl])
              = List.filter (shellKeepLine K) r₀ from by
            rw [List.filter_append]
            simp [List.filter_cons, hkl]]
          rcases List.eq_nil_or_concat (List.filter (shellKeepLine K) r₀)
            with hfe | ⟨F₀, fl, hfe⟩
          · rw [hfe, show (l0 :: ([] : List (List Char))).flatten = l0 from by simp]
            exact shell_idem_l0_only K hK l0 ch0 hnl0 (Or.inl hl0)
              (Or.inl (has_shebang_rstrip l0 ch0 hsh (Or.inl hl0)))
          · rw [hfe, List.concat_eq_append]
            have hF₀ : ∀ m ∈ F₀, shellKeepLine K m = true
                ∧ ∃ ch, '\n' ∉ ch ∧ m = ch ++ ['\n'] := by
              intro m hm
              apply hfL₀
              rw [hfe, List.concat_eq_append]
              exact List.mem_append_left _ hm
            have hflmem : fl ∈ List.filter (shellKeepLine K) r₀ := by
              rw [hfe, List.concat_eq_append]
              simp
            obtain ⟨hflkeep, ch1, hch1nl, hch1f⟩ := hfL₀ fl hflmem
            exact shell_idem_sheb K hK l0 ch0 hsh hl0 hnl0 F₀ fl hF₀ hflkeep
              ⟨ch1, hch1nl, Or.inl hch1f⟩
    · have hout : strip_shell_comments s K
          = cleanup_empty_lines (List.filter (shellKeepLine K) (l0 :: rest)).flatten := by
        unfold strip_shell_comments
        rw [hs]
        dsimp only
        rw [if_neg hsh, shellBody_eq_filter]
      rw [hout]
      rcases List.eq_nil_or_concat rest with rfl | ⟨r₀, rl, hre⟩
      · obtain ⟨ch0, hnl0, hform⟩ := hl0shape
        by_cases hkl : shellKeepLine K l0 = true
        · rw [show List.filter (shellKeepLine K) [l0] = [l0] from by
            simp [List.filter_cons, hkl]]
          rw [show ([l0] : List (List Char)).flatten = l0 from by simp]
          exact shell_idem_l0_only K hK l0 ch0 hnl0 hform
            (Or.inr (shellKeepLine_transport K hK ch0 l0 hnl0 hform hkl))
        · rw [show List.filter (shellKeepLine K) [l0] = [] from by
            simp [List.filter_cons, hkl]]
          rw [show (([] : List (List Char))).flatten = ([] : List Char) from rfl]
          rw [show cleanup_empty_lines ([] : List Char) = [] from by decide]
          rfl
      · subst hre
        rw [List.concat_eq_append]
        have hdl' : ∀ m ∈ l0 :: r₀, ∃ ch, '\n' ∉ ch ∧ m = ch ++ ['\n'] := by
          intro m hm
          apply splitKE_dropLast_nl s
          rw [hs, List.concat_eq_append,
            show l0 :: (r₀ ++ [rl]) = (l0 :: r₀) ++ [rl] from rfl, List.dropLast_concat]
          exact hm
        have hrlsh : ∃ ch, '\n' ∉ ch ∧ (rl = ch ++ ['\n'] ∨ rl = ch) :=
          splitKE_shape s rl (by rw [hs, List.concat_eq_append]; simp)
        have hall : ∀ m ∈ List.filter (shellKeepLine K) (l0 :: r₀),
            shellKeepLine K m = true ∧ ∃ ch, '\n' ∉ ch ∧ m = ch ++ ['\n'] :=
          fun m hm => ⟨List.of_mem_filter hm, hdl' m (List.mem_of_mem_filter hm)⟩
        have hsplit : List.filter (shellKeepLine K) (l0 :: (r₀ ++ [rl]))
            = List.filter (shellKeepLine K) (l0 :: r₀)
              ++ List.filter (shellKeepLine K) [rl] := by
          rw [show l0 :: (r₀ ++ [rl]) = (l0 :: r₀) ++ [rl] from rfl, List.filter_append]
        by_cases hkl : shellKeepLine K rl = true
        · rw [hsplit, show List.filter (shellKeepLine K) [rl] = [rl] from by
            simp [List.filter_cons, hkl]]
          exact shell_idem_kept K hK _ rl hall hkl hrlsh
        · rw [hsplit, show List.filter (shellKeepLine K) [rl] = [] from by
            simp [List.filter_cons, hkl], List.append_nil]
          rcases List.eq_nil_or_concat (List.filter (shellKeepLine K) (l0 :: r₀))
            with hfe | ⟨F₀, fl, hfe⟩
          · rw [hfe]
            rw [show (([] : List (List Char))).flatten = ([] : List Char) from rfl]
            rw [show cleanup_empty_lines ([] : List Char) = [] from by decide]
            rfl
          · rw [hfe, List.concat_eq_append]
            have hmemf : ∀ m ∈ F₀ ++ [fl], m ∈ List.filter (shellKeepLine K) (l0 :: r₀) := by
              intro m hm
              rw [hfe, List.concat_eq_append]
              exact hm
            have hF₀ : ∀ m ∈ F₀, shellKeepLine K m = true
                ∧ ∃ ch, '\n' ∉ ch ∧ m = ch ++ ['\n'] :=
              fun m hm => hall m (hmemf m (List.mem_append_left _ hm))
            obtain ⟨hflkeep, ch1, hch1nl, hch1f⟩ := hall fl (hmemf fl (by simp))
            exact shell_idem_kept K hK F₀ fl hF₀ hflkeep ⟨ch1, hch1nl, Or.inl hch1f⟩

/-- C4 counterexample: the CSS stripper is not idempotent.  On `"//*a*/*b*/"`
the first pass removes `/*a*/` (non-greedy from the `/*` at index 1) and
leaves `"/*b*/\n"`, whose `/*b*/` only the second pass removes, yielding
`"\n"`. -/
theorem strip_css_comments_not_idem :
    strip_css_comments (strip_css_comments "//*a*/*b*/".toList)
      ≠ strip_css_comments "//*a*/*b*/".toList := by
  decide

/-- Witness for `strip_shell_comments_idem`: the default keyword set
`{"shellcheck"}` satisfies the side condition, and idempotence holds at a
concrete script with a shebang, a dropped plain comment and a kept
`shellcheck` comment. -/
theorem strip_shell_comments_idem_witness :
    (∀ kw ∈ [("shellcheck".toList : List Char)], '\n' ∉ kw ∧ rstripHT kw = kw)
    ∧ strip_shell_comments
        (strip_shell_comments "#!/bin/sh\n# plain\n# shellcheck ok\nx=1  \n".toList
          ["shellcheck".toList]) ["shellcheck".toList]
      = strip_shell_comments "#!/bin/sh\n# plain\n# shellcheck ok\nx=1  \n".toList
          ["shellcheck".toList] :=
  ⟨by decide,
    strip_shell_comments_idem "#!/bin/sh\n# plain\n# shellcheck ok\nx=1  \n".toList
      ["shellcheck".toList] (by decide)⟩
